import Mathlib

/-!
Verification development for the SearchMix indexing and search engine.

The JavaScript source is shallowly embedded: strings are lists of Unicode
codepoints (`Txt := List Nat`), the SQLite-backed document table is a list of
records, and the external collaborators (the remark Markdown parser, the
`franc` language detector, the SQLite FTS5 MATCH/bm25 evaluator, and the
filesystem) are passed in as explicit parameters so that every embedded
operation is an executable Lean function.
-/

namespace SearchMix

/-- Strings as lists of Unicode codepoints (JS strings, one `Nat` per
codepoint; the sources never split surrogate pairs in the operations
modelled here). -/
abbrev Txt := List Nat

/-- Convenience conversion from a Lean string literal to codepoints. -/
def toCps (s : String) : Txt := s.data.map Char.toNat

/-! ## Normalizer (`_normalizeText` in `src/lib/SearchMix.js`)

`_normalizeText` NFD-decomposes the string, strips every codepoint in the
combining-mark range U+0300 to U+036F, and lowercases the result.
`String.prototype.normalize('NFD')` and `toLowerCase` are Unicode runtime
primitives; they are embedded as codepoint tables restricted to the Latin
repertoire exercised by the repository (each precomposed accented Latin
letter decomposes into base letter plus one combining mark; ASCII letters
lowercase by adding 32; all other codepoints are fixed). -/

/-- The combining-mark range U+0300 to U+036F removed by `_normalizeText`. -/
def isCombiningMark (c : Nat) : Bool := 0x300 ≤ c && c ≤ 0x36F

/-- Canonical decomposition table: precomposed accented Latin letters and
their NFD decompositions (base letter followed by a combining mark). -/
def nfdDecompositions : List (Nat × List Nat) :=
  [(0xC1, [0x41, 0x301]), (0xC9, [0x45, 0x301]), (0xCD, [0x49, 0x301]),
   (0xD1, [0x4E, 0x303]), (0xD3, [0x4F, 0x301]), (0xDA, [0x55, 0x301]),
   (0xE0, [0x61, 0x300]), (0xE1, [0x61, 0x301]), (0xE9, [0x65, 0x301]),
   (0xED, [0x69, 0x301]), (0xF1, [0x6E, 0x303]), (0xF3, [0x6F, 0x301]),
   (0xFA, [0x75, 0x301]), (0xFC, [0x75, 0x308])]

/-- NFD decomposition of one codepoint: table lookup, identity off the
table (codepoints off the table are already decomposed). -/
def nfdChar (c : Nat) : List Nat :=
  match nfdDecompositions.find? (fun p => p.1 == c) with
  | some p => p.2
  | none => [c]

/-- Lowercase mapping of one codepoint, modelling
`String.prototype.toLowerCase` on the repertoire that reaches it after NFD
decomposition and mark removal (ASCII letters shift by 32). -/
def toLowerCp (c : Nat) : Nat := if 0x41 ≤ c && c ≤ 0x5A then c + 0x20 else c

/-- `_normalizeText`: NFD-decompose, drop the combining marks, lowercase.
(`if (!text) return ''` is the identity on the empty list.) -/
def normalizeText (s : Txt) : Txt :=
  ((s.flatMap nfdChar).filter (fun c => !isCombiningMark c)).map toLowerCp

/-- The action of `normalizeText` on a single codepoint. -/
def normalizeChar (c : Nat) : List Nat :=
  ((nfdChar c).filter (fun d => !isCombiningMark d)).map toLowerCp

/-- The base letter a codepoint contributes after decomposition and mark
removal (the codepoint itself when it is not in the decomposition table). -/
def baseOf (c : Nat) : Nat :=
  ((nfdChar c).filter (fun d => !isCombiningMark d)).headD c

theorem normalizeText_eq_flatMap (s : Txt) :
    normalizeText s = s.flatMap normalizeChar := by
  induction s with
  | nil => rfl
  | cons c cs ih =>
    simp only [normalizeText, List.flatMap_cons, List.filter_append,
      List.map_append] at *
    rw [ih]
    rfl

theorem nfdChar_of_not_mem {c : Nat}
    (h : ∀ p ∈ nfdDecompositions, p.1 ≠ c) : nfdChar c = [c] := by
  unfold nfdChar
  have hn : nfdDecompositions.find? (fun p => p.1 == c) = none := by
    rw [List.find?_eq_none]
    intro p hp
    simpa using h p hp
  rw [hn]

theorem normalizeChar_of_plain {c : Nat}
    (h : ∀ p ∈ nfdDecompositions, p.1 ≠ c) (hcm : ¬isCombiningMark c = true) :
    normalizeChar c = [toLowerCp c] := by
  unfold normalizeChar
  rw [nfdChar_of_not_mem h]
  simp [hcm]

theorem normalizeChar_fixed {c d : Nat} (hd : d ∈ normalizeChar c) :
    normalizeChar d = [d] := by
  unfold normalizeChar nfdChar at hd
  cases hfind : nfdDecompositions.find? (fun p => p.1 == c) with
  | some p =>
    rw [hfind] at hd
    have hp := List.mem_of_find?_eq_some hfind
    fin_cases hp <;>
      (obtain ⟨a, ha, rfl⟩ := List.mem_map.mp hd
       obtain ⟨ham, haf⟩ := List.mem_filter.mp ha
       simp only [List.mem_cons, List.not_mem_nil, or_false] at ham
       rcases ham with rfl | rfl <;> first | decide | exact absurd haf (by decide))
  | none =>
    rw [hfind] at hd
    have hnotin : ∀ p ∈ nfdDecompositions, p.1 ≠ c := by
      have hq := List.find?_eq_none.mp hfind
      intro p hp
      simpa using hq p hp
    by_cases hcm : isCombiningMark c = true
    · simp [hcm] at hd
    · simp only [hcm, Bool.not_false, List.filter_cons_of_pos, List.filter_nil,
        List.map_cons, List.map_nil, List.mem_singleton] at hd
      subst hd
      by_cases hAZ : (0x41 ≤ c && c ≤ 0x5A) = true
      · simp only [Bool.and_eq_true, decide_eq_true_eq] at hAZ
        have he : toLowerCp c = c + 0x20 := by
          unfold toLowerCp
          rw [if_pos (by simp only [Bool.and_eq_true, decide_eq_true_eq]; exact hAZ)]
        have hnot2 : ∀ p ∈ nfdDecompositions, p.1 ≠ c + 0x20 := by
          intro p hp
          fin_cases hp <;> simp <;> omega
        have hcm2 : ¬isCombiningMark (c + 0x20) = true := by
          simp only [isCombiningMark, Bool.and_eq_true, decide_eq_true_eq, not_and,
            not_le]
          omega
        have hfix : toLowerCp (c + 0x20) = c + 0x20 := by
          unfold toLowerCp
          have hno : ¬(0x41 ≤ c + 0x20 && c + 0x20 ≤ 0x5A) = true := by
            simp only [Bool.and_eq_true, decide_eq_true_eq, not_and, not_le]
            omega
          rw [if_neg hno]
        rw [he, normalizeChar_of_plain hnot2 hcm2, hfix]
      · have he : toLowerCp c = c := by
          unfold toLowerCp
          rw [if_neg hAZ]
        rw [he, normalizeChar_of_plain hnotin hcm, he]

theorem flatMap_eq_self_of_singleton {l : List Nat}
    (h : ∀ d ∈ l, normalizeChar d = [d]) :
    l.flatMap normalizeChar = l := by
  induction l with
  | nil => rfl
  | cons a l ih =>
    rw [List.flatMap_cons, h a (List.mem_cons_self a l),
      ih (fun d hd => h d (List.mem_cons_of_mem a hd))]
    rfl

/-- C7: the normalizer is pure and total (it is a Lean function), and
idempotent: normalizing twice equals normalizing once, for every string. -/
theorem normalizeText_idempotent (s : Txt) :
    normalizeText (normalizeText s) = normalizeText s := by
  rw [normalizeText_eq_flatMap (normalizeText s), normalizeText_eq_flatMap s,
    List.flatMap_assoc]
  apply List.flatMap_congr
  intro c _
  exact flatMap_eq_self_of_singleton (fun d hd => normalizeChar_fixed hd)

/-- A string that contains no combining-mark codepoints. -/
def markFree (s : Txt) : Prop := ∀ c ∈ s, ¬isCombiningMark c = true

instance : DecidablePred markFree := fun s => by
  unfold markFree
  infer_instance

/-- On a non-combining codepoint, normalization produces exactly one
codepoint: the lowercased base letter. -/
theorem normalizeChar_of_markfree {c : Nat} (hcm : ¬isCombiningMark c = true) :
    normalizeChar c = [toLowerCp (baseOf c)] := by
  unfold normalizeChar baseOf nfdChar
  cases hfind : nfdDecompositions.find? (fun p => p.1 == c) with
  | some p =>
    have hp := List.mem_of_find?_eq_some hfind
    fin_cases hp <;> rfl
  | none =>
    simp [hcm]

/-- On mark-free input the normalizer acts codepoint-by-codepoint: it maps
each codepoint to the lowercase form of its base letter. -/
theorem normalizeText_markfree {s : Txt} (h : markFree s) :
    normalizeText s = s.map (fun c => toLowerCp (baseOf c)) := by
  rw [normalizeText_eq_flatMap]
  induction s with
  | nil => rfl
  | cons a l ih =>
    rw [List.flatMap_cons, normalizeChar_of_markfree (h a (List.mem_cons_self a l)),
      ih (fun c hc => h c (List.mem_cons_of_mem a hc))]
    rfl

/-- On mark-free input normalization preserves the codepoint length. -/
theorem normalizeText_length_markfree {s : Txt} (h : markFree s) :
    (normalizeText s).length = s.length := by
  rw [normalizeText_markfree h, List.length_map]

/-! ## Structural parser (`extractMarkdownFields` in `src/lib/parser.js`)

The source parses Markdown with `remark-parse` (external) and then walks the
abstract syntax tree with `unist-util-visit`, reacting to `heading`,
`paragraph` and `code` nodes.  The embedding takes the walk order of visited
nodes as a `List Block` (the remark parser itself is an external
collaborator) and folds the visitor body over it. -/

/-- An offset range inside the source Markdown (`node.position.start.offset`
and `node.position.end.offset`; line/column data is not consumed by the
embedded operations). -/
structure Pos where
  startOffset : Nat
  endOffset : Nat
deriving DecidableEq

/-- Content-block kind stored in a section's `content` array. -/
inductive CType where
  | paragraph
  | code
deriving DecidableEq

/-- A content block `{type, text, position}` (plus `lang` for code blocks). -/
structure ContentBlock where
  ctype : CType
  text : Txt
  lang : Option Txt
  position : Option Pos
deriving DecidableEq

/-- Section type: `"h" + depth` for heading sections, `"body"` for the
synthetic pre-heading section. -/
inductive SType where
  | h (d : Nat)
  | body
deriving DecidableEq

/-- A section object as built by `extractMarkdownFields` (ids are the numeric
part of the `"s" + counter` identifiers). -/
structure Section where
  id : Nat
  stype : SType
  depth : Nat
  text : Option Txt
  content : List ContentBlock
  childrenIds : List Nat
  parentId : Option Nat
  position : Option Pos
deriving DecidableEq

/-- A visited Markdown AST node, with text already extracted from inline
children (`extractTextFromNode`, before trimming). -/
inductive Block where
  | heading (depth : Nat) (text : Txt) (position : Option Pos)
  | paragraph (text : Txt) (position : Option Pos)
  | code (value : Txt) (lang : Option Txt) (position : Option Pos)
  | other
deriving DecidableEq

/-- JS `String.prototype.trim` whitespace on the ASCII repertoire. -/
def isJsWhitespace (c : Nat) : Bool :=
  c = 0x20 || c = 0x9 || c = 0xA || c = 0xD || c = 0xB || c = 0xC

/-- JS `String.prototype.trim`. -/
def trim (s : Txt) : Txt :=
  ((s.dropWhile isJsWhitespace).reverse.dropWhile isJsWhitespace).reverse

/-- Parser state during the AST walk (`title`, the per-level heading arrays,
`bodyParts`, `structure`, `stack`, `sectionsIndex`, `currentSection`).
Sections live in `sectionsIndex` in creation order, so the section with id
`i` sits at position `i`; `struct` and `stack` hold ids (the JS code shares
mutable objects instead). -/
structure PState where
  title : Txt
  h1s : List Txt
  h2s : List Txt
  h3s : List Txt
  h4s : List Txt
  h5s : List Txt
  h6s : List Txt
  bodyParts : List Txt
  struct : List Nat
  stack : List Nat
  sectionsIndex : List Section
  current : Option Nat
deriving DecidableEq

def initState : PState :=
  ⟨[], [], [], [], [], [], [], [], [], [], [], none⟩

/-- Look a section up by id (total, with a dummy default; the invariants
below show every stored id resolves). -/
def getSec (idx : List Section) (i : Nat) : Section :=
  match idx[i]? with
  | some s => s
  | none => ⟨0, SType.body, 0, none, [], [], none, none⟩

/-- Apply `f` to the section with id `i` (JS mutates the shared object). -/
def updateSec (idx : List Section) (i : Nat) (f : Section → Section) :
    List Section :=
  idx.map (fun s => if s.id = i then f s else s)

/-- `if (node.depth === 1 && !title) title = text; else` push onto the
per-level heading array. -/
def pushHeadingText (d : Nat) (t : Txt) (st : PState) : PState :=
  if d = 1 ∧ st.title = [] then { st with title := t }
  else match d with
    | 1 => { st with h1s := st.h1s ++ [t] }
    | 2 => { st with h2s := st.h2s ++ [t] }
    | 3 => { st with h3s := st.h3s ++ [t] }
    | 4 => { st with h4s := st.h4s ++ [t] }
    | 5 => { st with h5s := st.h5s ++ [t] }
    | 6 => { st with h6s := st.h6s ++ [t] }
    | _ => st

/-- The visitor body of `extractMarkdownFields`, one visited node at a time.
The freshly assigned section id (`sectionIdCounter`) is the number of
sections created so far, i.e. `st.sectionsIndex.length`. -/
def step (includeCodeBlocks : Bool) (st : PState) (b : Block) : PState :=
  match b with
  | Block.heading d t0 pos =>
    if trim t0 = [] then st
    else
      match (pushHeadingText d (trim t0) st).stack.dropWhile
          (fun i => d ≤ (getSec (pushHeadingText d (trim t0) st).sectionsIndex i).depth) with
      | parent :: rest =>
        { pushHeadingText d (trim t0) st with
          sectionsIndex := (updateSec (pushHeadingText d (trim t0) st).sectionsIndex parent
            (fun s => { s with childrenIds := s.childrenIds ++ [st.sectionsIndex.length] }))
              ++ [⟨st.sectionsIndex.length, SType.h d, d, some (trim t0), [], [],
                  some parent, pos⟩],
          stack := st.sectionsIndex.length :: parent :: rest,
          current := some st.sectionsIndex.length }
      | [] =>
        { pushHeadingText d (trim t0) st with
          sectionsIndex := (pushHeadingText d (trim t0) st).sectionsIndex
            ++ [⟨st.sectionsIndex.length, SType.h d, d, some (trim t0), [], [], none, pos⟩],
          struct := (pushHeadingText d (trim t0) st).struct ++ [st.sectionsIndex.length],
          stack := [st.sectionsIndex.length],
          current := some st.sectionsIndex.length }
  | Block.paragraph t0 pos =>
    if trim t0 = [] then st
    else
      match st.current with
      | some i =>
        { st with
          bodyParts := st.bodyParts ++ [trim t0],
          sectionsIndex := updateSec st.sectionsIndex i
            (fun s => { s with
              content := s.content ++ [⟨CType.paragraph, trim t0, none, pos⟩] }) }
      | none =>
        { st with
          bodyParts := st.bodyParts ++ [trim t0],
          sectionsIndex := st.sectionsIndex ++
            [⟨st.sectionsIndex.length, SType.body, 0, none,
              [⟨CType.paragraph, trim t0, none, pos⟩], [], none, none⟩],
          struct := st.struct ++ [st.sectionsIndex.length] }
  | Block.code v lang pos =>
    if includeCodeBlocks then
      if trim v = [] then st
      else
        match st.current with
        | some i =>
          { st with
            bodyParts := st.bodyParts ++ [trim v],
            sectionsIndex := updateSec st.sectionsIndex i
              (fun s => { s with
                content := s.content ++ [⟨CType.code, trim v, lang, pos⟩] }) }
        | none => { st with bodyParts := st.bodyParts ++ [trim v] }
    else st
  | Block.other => st

/-- The returned fields of `extractMarkdownFields`. -/
structure ParseResult where
  title : Txt
  h1 : Txt
  h2 : Txt
  h3 : Txt
  h4 : Txt
  h5 : Txt
  h6 : Txt
  body : Txt
  struct : List Section
  sectionsIndex : List Section
deriving DecidableEq

/-- `extractMarkdownFields(markdown, {includeCodeBlocks})`, embedded over the
visited node list produced by the external remark parser.  Heading arrays
are joined with a newline, body parts with a blank line, and `structure` is
returned with its section objects resolved from the index. -/
def extractMarkdownFields (blocks : List Block) (includeCodeBlocks : Bool) :
    ParseResult :=
  let st := blocks.foldl (step includeCodeBlocks) initState
  { title := st.title
    h1 := List.intercalate [0xA] st.h1s
    h2 := List.intercalate [0xA] st.h2s
    h3 := List.intercalate [0xA] st.h3s
    h4 := List.intercalate [0xA] st.h4s
    h5 := List.intercalate [0xA] st.h5s
    h6 := List.intercalate [0xA] st.h6s
    body := List.intercalate [0xA, 0xA] st.bodyParts
    struct := st.struct.map (getSec st.sectionsIndex)
    sectionsIndex := st.sectionsIndex }

/-! ### Basic lemmas about the parser state operations -/

theorem getSec_append_left {idx : List Section} {l : List Section} {k : Nat}
    (hk : k < idx.length) : getSec (idx ++ l) k = getSec idx k := by
  unfold getSec
  rw [List.getElem?_append_left hk]

theorem getSec_append_right {idx : List Section} {s : Section} :
    getSec (idx ++ [s]) idx.length = s := by
  unfold getSec
  rw [List.getElem?_append_right (Nat.le_refl _)]
  simp

theorem updateSec_length {idx : List Section} {i : Nat} {f : Section → Section} :
    (updateSec idx i f).length = idx.length := by
  unfold updateSec
  rw [List.length_map]

theorem getSec_updateSec {idx : List Section} {i : Nat} {f : Section → Section}
    {k : Nat} (hk : k < idx.length) :
    getSec (updateSec idx i f) k =
      (if (getSec idx k).id = i then f (getSec idx k) else getSec idx k) := by
  unfold updateSec getSec
  rw [List.getElem?_map]
  have hg : idx[k]? = some idx[k] := List.getElem?_eq_getElem hk
  rw [hg]
  rfl

theorem getSec_mem {idx : List Section} {k : Nat} (hk : k < idx.length) :
    getSec idx k ∈ idx := by
  unfold getSec
  rw [List.getElem?_eq_getElem hk]
  exact List.getElem_mem hk

/-- Well-formed index: section ids enumerate positions. -/
def idsOk (idx : List Section) : Prop :=
  idx.map Section.id = List.range idx.length

theorem getSec_id {idx : List Section} (hids : idsOk idx) {k : Nat}
    (hk : k < idx.length) : (getSec idx k).id = k := by
  have h : (idx.map Section.id)[k]? = (List.range idx.length)[k]? := by rw [hids]
  rw [List.getElem?_map, List.getElem?_range hk, List.getElem?_eq_getElem hk] at h
  unfold getSec
  rw [List.getElem?_eq_getElem hk]
  simpa using h

theorem mem_id_lt {idx : List Section} (hids : idsOk idx) {s : Section}
    (hs : s ∈ idx) : s.id < idx.length := by
  have h1 : s.id ∈ idx.map Section.id := List.mem_map_of_mem Section.id hs
  rw [hids] at h1
  exact List.mem_range.mp h1

theorem getSec_of_mem {idx : List Section} (hids : idsOk idx) {s : Section}
    (hs : s ∈ idx) : getSec idx s.id = s := by
  obtain ⟨k, hk, hget⟩ := List.mem_iff_getElem.mp hs
  have hgs : getSec idx k = s := by
    unfold getSec
    rw [List.getElem?_eq_getElem hk, hget]
  have hid : (getSec idx k).id = k := getSec_id hids hk
  rw [hgs] at hid
  rw [hid, hgs]

theorem dropWhile_head_false {p : Nat → Bool} {l : List Nat} {a : Nat} {t : List Nat}
    (h : l.dropWhile p = a :: t) : p a = false := by
  induction l with
  | nil => simp at h
  | cons x xs ih =>
    rw [List.dropWhile_cons] at h
    by_cases hx : p x = true
    · rw [if_pos hx] at h
      exact ih h
    · rw [if_neg hx] at h
      cases h
      exact Bool.not_eq_true _ |>.mp hx

theorem dropWhile_subset {p : Nat → Bool} {l : List Nat} :
    ∀ i ∈ l.dropWhile p, i ∈ l :=
  fun _ hi => (List.dropWhile_sublist (l := l) p).subset hi

theorem pushHeadingText_sectionsIndex {d : Nat} {t : Txt} {st : PState} :
    (pushHeadingText d t st).sectionsIndex = st.sectionsIndex := by
  unfold pushHeadingText
  split
  · rfl
  · split <;> rfl

theorem pushHeadingText_stack {d : Nat} {t : Txt} {st : PState} :
    (pushHeadingText d t st).stack = st.stack := by
  unfold pushHeadingText
  split
  · rfl
  · split <;> rfl

theorem pushHeadingText_struct {d : Nat} {t : Txt} {st : PState} :
    (pushHeadingText d t st).struct = st.struct := by
  unfold pushHeadingText
  split
  · rfl
  · split <;> rfl

theorem pushHeadingText_current {d : Nat} {t : Txt} {st : PState} :
    (pushHeadingText d t st).current = st.current := by
  unfold pushHeadingText
  split
  · rfl
  · split <;> rfl

/-! ### Characterizations of `step` by case -/

theorem step_heading_empty {icb : Bool} {st : PState} {d : Nat} {t0 : Txt}
    {pos : Option Pos} (h : trim t0 = []) :
    step icb st (Block.heading d t0 pos) = st := by
  simp only [step]
  rw [if_pos h]

theorem step_heading_parent {icb : Bool} {st : PState} {d : Nat} {t0 : Txt}
    {pos : Option Pos} {parent : Nat} {rest : List Nat} (h : trim t0 ≠ [])
    (hdw : (pushHeadingText d (trim t0) st).stack.dropWhile
      (fun i => d ≤ (getSec (pushHeadingText d (trim t0) st).sectionsIndex i).depth)
        = parent :: rest) :
    step icb st (Block.heading d t0 pos) =
      { pushHeadingText d (trim t0) st with
        sectionsIndex := (updateSec (pushHeadingText d (trim t0) st).sectionsIndex parent
          (fun s => { s with childrenIds := s.childrenIds ++ [st.sectionsIndex.length] }))
            ++ [⟨st.sectionsIndex.length, SType.h d, d, some (trim t0), [], [],
                some parent, pos⟩],
        stack := st.sectionsIndex.length :: parent :: rest,
        current := some st.sectionsIndex.length } := by
  simp only [step]
  rw [if_neg h]
  simp only [hdw]

theorem step_heading_root {icb : Bool} {st : PState} {d : Nat} {t0 : Txt}
    {pos : Option Pos} (h : trim t0 ≠ [])
    (hdw : (pushHeadingText d (trim t0) st).stack.dropWhile
      (fun i => d ≤ (getSec (pushHeadingText d (trim t0) st).sectionsIndex i).depth)
        = []) :
    step icb st (Block.heading d t0 pos) =
      { pushHeadingText d (trim t0) st with
        sectionsIndex := (pushHeadingText d (trim t0) st).sectionsIndex
          ++ [⟨st.sectionsIndex.length, SType.h d, d, some (trim t0), [], [], none, pos⟩],
        struct := (pushHeadingText d (trim t0) st).struct ++ [st.sectionsIndex.length],
        stack := [st.sectionsIndex.length],
        current := some st.sectionsIndex.length } := by
  simp only [step]
  rw [if_neg h]
  simp only [hdw]

theorem step_paragraph_empty {icb : Bool} {st : PState} {t0 : Txt}
    {pos : Option Pos} (h : trim t0 = []) :
    step icb st (Block.paragraph t0 pos) = st := by
  simp only [step]
  rw [if_pos h]

theorem step_paragraph_current {icb : Bool} {st : PState} {t0 : Txt}
    {pos : Option Pos} {i : Nat} (h : trim t0 ≠ []) (hc : st.current = some i) :
    step icb st (Block.paragraph t0 pos) =
      { st with
        bodyParts := st.bodyParts ++ [trim t0],
        sectionsIndex := updateSec st.sectionsIndex i
          (fun s => { s with
            content := s.content ++ [⟨CType.paragraph, trim t0, none, pos⟩] }) } := by
  simp only [step]
  rw [if_neg h]
  simp only [hc]

theorem step_paragraph_orphan {icb : Bool} {st : PState} {t0 : Txt}
    {pos : Option Pos} (h : trim t0 ≠ []) (hc : st.current = none) :
    step icb st (Block.paragraph t0 pos) =
      { st with
        bodyParts := st.bodyParts ++ [trim t0],
        sectionsIndex := st.sectionsIndex ++
          [⟨st.sectionsIndex.length, SType.body, 0, none,
            [⟨CType.paragraph, trim t0, none, pos⟩], [], none, none⟩],
        struct := st.struct ++ [st.sectionsIndex.length] } := by
  simp only [step]
  rw [if_neg h]
  simp only [hc]

theorem step_code_off {st : PState} {v : Txt} {lang : Option Txt}
    {pos : Option Pos} : step false st (Block.code v lang pos) = st := by
  simp only [step]
  rw [if_neg (by simp)]

theorem step_code_empty {st : PState} {v : Txt} {lang : Option Txt}
    {pos : Option Pos} (h : trim v = []) :
    step true st (Block.code v lang pos) = st := by
  simp only [step]
  rw [if_pos trivial, if_pos h]

theorem step_code_current {st : PState} {v : Txt} {lang : Option Txt}
    {pos : Option Pos} {i : Nat} (h : trim v ≠ []) (hc : st.current = some i) :
    step true st (Block.code v lang pos) =
      { st with
        bodyParts := st.bodyParts ++ [trim v],
        sectionsIndex := updateSec st.sectionsIndex i
          (fun s => { s with
            content := s.content ++ [⟨CType.code, trim v, lang, pos⟩] }) } := by
  simp only [step]
  rw [if_pos trivial, if_neg h]
  simp only [hc]

theorem step_code_orphan {st : PState} {v : Txt} {lang : Option Txt}
    {pos : Option Pos} (h : trim v ≠ []) (hc : st.current = none) :
    step true st (Block.code v lang pos) =
      { st with bodyParts := st.bodyParts ++ [trim v] } := by
  simp only [step]
  rw [if_pos trivial]
  rw [if_neg h]
  rw [hc]

theorem step_other {icb : Bool} {st : PState} : step icb st Block.other = st := by
  simp only [step]

/-! ### The section-tree invariant -/

/-- Structural invariant of the parser state, over its four tree-shaped
components: ids enumerate index positions; parents have smaller ids and
strictly smaller depths; children resolve back to their parent with strictly
larger depths; stack and current hold heading sections; `structure` holds
exactly the parentless sections. -/
structure InvC (idx : List Section) (struc : List Nat) (stack : List Nat)
    (cur : Option Nat) : Prop where
  ids : idsOk idx
  parentOk : ∀ s ∈ idx, ∀ p, s.parentId = some p →
    p < s.id ∧ (getSec idx p).depth < s.depth
  childOk : ∀ s ∈ idx, ∀ c ∈ s.childrenIds, s.id < c ∧ c < idx.length ∧
    (getSec idx c).parentId = some s.id ∧ s.depth < (getSec idx c).depth
  stackOk : ∀ i ∈ stack, i < idx.length ∧ (getSec idx i).stype ≠ SType.body
  currentOk : ∀ i, cur = some i → i < idx.length ∧ (getSec idx i).stype ≠ SType.body
  structOk : ∀ j ∈ struc, j < idx.length
  rootsOk : ∀ s ∈ idx, (s.parentId = none ↔ s.id ∈ struc)

/-- The invariant of a parser state. -/
def Inv (st : PState) : Prop :=
  InvC st.sectionsIndex st.struct st.stack st.current

theorem inv_init : Inv initState := by
  constructor <;> simp [initState, idsOk, getSec]

theorem updateSec_map_id {idx : List Section} {i : Nat} {f : Section → Section}
    (hf : ∀ s, (f s).id = s.id) :
    (updateSec idx i f).map Section.id = idx.map Section.id := by
  unfold updateSec
  rw [List.map_map]
  apply List.map_congr_left
  intro s _
  show (if s.id = i then f s else s).id = s.id
  split
  · exact hf s
  · rfl

theorem idsOk_updateSec {idx : List Section} {i : Nat} {f : Section → Section}
    (hids : idsOk idx) (hf : ∀ s, (f s).id = s.id) : idsOk (updateSec idx i f) := by
  unfold idsOk
  rw [updateSec_map_id hf, updateSec_length]
  exact hids

theorem idsOk_append {idx : List Section} (hids : idsOk idx) {s : Section}
    (hs : s.id = idx.length) : idsOk (idx ++ [s]) := by
  unfold idsOk at *
  rw [List.map_append, List.length_append]
  simp only [List.map_cons, List.map_nil, List.length_cons, List.length_nil]
  rw [hs, hids]
  rw [List.range_succ]

/-- Appending a fresh content block to the section `cur` points at preserves
the invariant (only `content` changes). -/
theorem invc_update_content {idx : List Section} {struc stack : List Nat}
    {cur : Option Nat} (h : InvC idx struc stack cur) (i : Nat) (cb : ContentBlock) :
    InvC (updateSec idx i (fun s => { s with content := s.content ++ [cb] }))
      struc stack cur := by
  have hproj : ∀ s : Section,
      ((if s.id = i then { s with content := s.content ++ [cb] } else s) : Section).id = s.id ∧
      ((if s.id = i then { s with content := s.content ++ [cb] } else s) : Section).depth = s.depth ∧
      ((if s.id = i then { s with content := s.content ++ [cb] } else s) : Section).parentId = s.parentId ∧
      ((if s.id = i then { s with content := s.content ++ [cb] } else s) : Section).stype = s.stype ∧
      ((if s.id = i then { s with content := s.content ++ [cb] } else s) : Section).childrenIds = s.childrenIds := by
    intro s
    split <;> exact ⟨rfl, rfl, rfl, rfl, rfl⟩
  have hget : ∀ k, k < idx.length →
      ((getSec (updateSec idx i (fun s => { s with content := s.content ++ [cb] })) k).id
          = (getSec idx k).id ∧
        (getSec (updateSec idx i (fun s => { s with content := s.content ++ [cb] })) k).depth
          = (getSec idx k).depth ∧
        (getSec (updateSec idx i (fun s => { s with content := s.content ++ [cb] })) k).parentId
          = (getSec idx k).parentId ∧
        (getSec (updateSec idx i (fun s => { s with content := s.content ++ [cb] })) k).stype
          = (getSec idx k).stype) := by
    intro k hk
    rw [getSec_updateSec hk]
    obtain ⟨h1, h2, h3, h4, _⟩ := hproj (getSec idx k)
    exact ⟨h1, h2, h3, h4⟩
  constructor
  · exact idsOk_updateSec h.ids (fun s => rfl)
  · intro s' hs' p hp
    obtain ⟨s, hs, rfl⟩ := List.mem_map.mp hs'
    obtain ⟨hid, hdep, hpar, _, _⟩ := hproj s
    rw [hpar] at hp
    obtain ⟨h1, h2⟩ := h.parentOk s hs p hp
    have hplen : p < idx.length := Nat.lt_trans h1 (mem_id_lt h.ids hs)
    rw [hid, hdep, (hget p hplen).2.1]
    exact ⟨h1, h2⟩
  · intro s' hs' c hc
    obtain ⟨s, hs, rfl⟩ := List.mem_map.mp hs'
    obtain ⟨hid, hdep, _, _, hch⟩ := hproj s
    rw [hch] at hc
    obtain ⟨h1, h2, h3, h4⟩ := h.childOk s hs c hc
    rw [hid, hdep, updateSec_length, (hget c h2).2.2.1, (hget c h2).2.1]
    exact ⟨h1, h2, h3 ▸ rfl, h4⟩
  · intro j hj
    obtain ⟨h1, h2⟩ := h.stackOk j hj
    rw [updateSec_length, (hget j h1).2.2.2]
    exact ⟨h1, h2⟩
  · intro j hj
    obtain ⟨h1, h2⟩ := h.currentOk j hj
    rw [updateSec_length, (hget j h1).2.2.2]
    exact ⟨h1, h2⟩
  · intro j hj
    rw [updateSec_length]
    exact h.structOk j hj
  · intro s' hs'
    obtain ⟨s, hs, rfl⟩ := List.mem_map.mp hs'
    obtain ⟨hid, _, hpar, _, _⟩ := hproj s
    rw [hid, hpar]
    exact h.rootsOk s hs

/-- Appending a fresh parentless, childless section (a top-level heading or
a synthetic body section) and registering it in `structure` preserves the
invariant. -/
theorem invc_append_root {idx : List Section} {struc stack : List Nat}
    {cur : Option Nat} (h : InvC idx struc stack cur) (s0 : Section)
    (hid : s0.id = idx.length) (hpar : s0.parentId = none)
    (hch : s0.childrenIds = []) :
    InvC (idx ++ [s0]) (struc ++ [idx.length]) stack cur := by
  have hlen : (idx ++ [s0]).length = idx.length + 1 := by
    rw [List.length_append]
    rfl
  constructor
  · exact idsOk_append h.ids hid
  · intro s' hs' p hp
    rcases List.mem_append.mp hs' with hs | hs
    · obtain ⟨h1, h2⟩ := h.parentOk s' hs p hp
      have hplen : p < idx.length := Nat.lt_trans h1 (mem_id_lt h.ids hs)
      rw [getSec_append_left hplen]
      exact ⟨h1, h2⟩
    · rw [List.mem_singleton] at hs
      subst hs
      rw [hpar] at hp
      cases hp
  · intro s' hs' c hc
    rcases List.mem_append.mp hs' with hs | hs
    · obtain ⟨h1, h2, h3, h4⟩ := h.childOk s' hs c hc
      rw [getSec_append_left h2, hlen]
      exact ⟨h1, Nat.lt_succ_of_lt h2, h3, h4⟩
    · rw [List.mem_singleton] at hs
      subst hs
      rw [hch] at hc
      cases hc
  · intro i hi
    obtain ⟨h1, h2⟩ := h.stackOk i hi
    rw [getSec_append_left h1, hlen]
    exact ⟨Nat.lt_succ_of_lt h1, h2⟩
  · intro i hi
    obtain ⟨h1, h2⟩ := h.currentOk i hi
    rw [getSec_append_left h1, hlen]
    exact ⟨Nat.lt_succ_of_lt h1, h2⟩
  · intro j hj
    rw [hlen]
    rcases List.mem_append.mp hj with hj | hj
    · exact Nat.lt_succ_of_lt (h.structOk j hj)
    · rw [List.mem_singleton] at hj
      subst hj
      exact Nat.lt_succ_self _
  · intro s' hs'
    rcases List.mem_append.mp hs' with hs | hs
    · have hlt : s'.id < idx.length := mem_id_lt h.ids hs
      rw [List.mem_append, List.mem_singleton]
      constructor
      · intro hp
        exact Or.inl ((h.rootsOk s' hs).mp hp)
      · intro hp
        rcases hp with hp | hp
        · exact (h.rootsOk s' hs).mpr hp
        · omega
    · rw [List.mem_singleton] at hs
      subst hs
      rw [hpar, List.mem_append, List.mem_singleton, hid]
      simp

/-- Processing a top-level heading (empty stack after popping) preserves the
invariant. -/
theorem invc_heading_root {idx : List Section} {struc stack : List Nat}
    {cur : Option Nat} (h : InvC idx struc stack cur) (d : Nat) (t : Txt)
    (pos : Option Pos) :
    InvC (idx ++ [⟨idx.length, SType.h d, d, some t, [], [], none, pos⟩])
      (struc ++ [idx.length]) [idx.length] (some idx.length) := by
  have base := invc_append_root h ⟨idx.length, SType.h d, d, some t, [], [], none, pos⟩
    rfl rfl rfl
  have hlen : (idx ++ [(⟨idx.length, SType.h d, d, some t, [], [], none, pos⟩ : Section)]).length
      = idx.length + 1 := by
    rw [List.length_append]
    rfl
  have hgn : getSec (idx ++ [(⟨idx.length, SType.h d, d, some t, [], [], none, pos⟩ : Section)])
      idx.length = ⟨idx.length, SType.h d, d, some t, [], [], none, pos⟩ :=
    getSec_append_right
  refine ⟨base.ids, base.parentOk, base.childOk, ?_, ?_, base.structOk, base.rootsOk⟩
  · intro i hi
    rw [List.mem_singleton] at hi
    subst hi
    rw [hlen, hgn]
    exact ⟨Nat.lt_succ_self _, fun hcon => SType.noConfusion hcon⟩
  · intro i hi
    cases hi
    rw [hlen, hgn]
    exact ⟨Nat.lt_succ_self _, fun hcon => SType.noConfusion hcon⟩

/-- Creating a synthetic body section for a pre-heading paragraph preserves
the invariant. -/
theorem invc_paragraph_orphan {idx : List Section} {struc stack : List Nat}
    {cur : Option Nat} (h : InvC idx struc stack cur) (cb : ContentBlock) :
    InvC (idx ++ [⟨idx.length, SType.body, 0, none, [cb], [], none, none⟩])
      (struc ++ [idx.length]) stack cur :=
  invc_append_root h _ rfl rfl rfl

/-- Processing a heading whose popped stack still has a top (the parent)
preserves the invariant: the new section is appended with the parent link,
and the parent gains the new id as its last child. -/
theorem invc_heading_parent {idx : List Section} {struc stack : List Nat}
    {cur : Option Nat} (h : InvC idx struc stack cur)
    {d : Nat} {t : Txt} {pos : Option Pos} {parent : Nat} {rest : List Nat}
    (hsub : ∀ i ∈ parent :: rest, i ∈ stack)
    (hdep : (getSec idx parent).depth < d) :
    InvC ((updateSec idx parent
        (fun s => { s with childrenIds := s.childrenIds ++ [idx.length] }))
        ++ [⟨idx.length, SType.h d, d, some t, [], [], some parent, pos⟩])
      struc (idx.length :: parent :: rest) (some idx.length) := by
  have hplen : parent < idx.length :=
    (h.stackOk parent (hsub parent (List.mem_cons_self _ _))).1
  have hlenU : (updateSec idx parent
      (fun s => { s with childrenIds := s.childrenIds ++ [idx.length] })).length
      = idx.length := updateSec_length
  have hlen : ((updateSec idx parent
      (fun s => { s with childrenIds := s.childrenIds ++ [idx.length] }))
      ++ [(⟨idx.length, SType.h d, d, some t, [], [], some parent, pos⟩ : Section)]).length
      = idx.length + 1 := by
    rw [List.length_append, hlenU]
    rfl
  have hget : ∀ k, k < idx.length →
      getSec ((updateSec idx parent
          (fun s => { s with childrenIds := s.childrenIds ++ [idx.length] }))
          ++ [⟨idx.length, SType.h d, d, some t, [], [], some parent, pos⟩]) k
        = (if (getSec idx k).id = parent
            then { getSec idx k with
              childrenIds := (getSec idx k).childrenIds ++ [idx.length] }
            else getSec idx k) := by
    intro k hk
    rw [getSec_append_left (by rw [hlenU]; exact hk), getSec_updateSec hk]
  have hgetDepth : ∀ k, k < idx.length →
      (getSec ((updateSec idx parent
          (fun s => { s with childrenIds := s.childrenIds ++ [idx.length] }))
          ++ [⟨idx.length, SType.h d, d, some t, [], [], some parent, pos⟩]) k).depth
        = (getSec idx k).depth := by
    intro k hk
    rw [hget k hk]
    split <;> rfl
  have hgetPar : ∀ k, k < idx.length →
      (getSec ((updateSec idx parent
          (fun s => { s with childrenIds := s.childrenIds ++ [idx.length] }))
          ++ [⟨idx.length, SType.h d, d, some t, [], [], some parent, pos⟩]) k).parentId
        = (getSec idx k).parentId := by
    intro k hk
    rw [hget k hk]
    split <;> rfl
  have hgetTy : ∀ k, k < idx.length →
      (getSec ((updateSec idx parent
          (fun s => { s with childrenIds := s.childrenIds ++ [idx.length] }))
          ++ [⟨idx.length, SType.h d, d, some t, [], [], some parent, pos⟩]) k).stype
        = (getSec idx k).stype := by
    intro k hk
    rw [hget k hk]
    split <;> rfl
  have hgn : getSec ((updateSec idx parent
      (fun s => { s with childrenIds := s.childrenIds ++ [idx.length] }))
      ++ [⟨idx.length, SType.h d, d, some t, [], [], some parent, pos⟩]) idx.length
      = ⟨idx.length, SType.h d, d, some t, [], [], some parent, pos⟩ := by
    have h0 := @getSec_append_right
      (updateSec idx parent
        (fun s => { s with childrenIds := s.childrenIds ++ [idx.length] }))
      ⟨idx.length, SType.h d, d, some t, [], [], some parent, pos⟩
    rw [hlenU] at h0
    exact h0
  have hproj : ∀ s : Section,
      ((if s.id = parent
          then { s with childrenIds := s.childrenIds ++ [idx.length] }
          else s) : Section).id = s.id ∧
      ((if s.id = parent
          then { s with childrenIds := s.childrenIds ++ [idx.length] }
          else s) : Section).depth = s.depth ∧
      ((if s.id = parent
          then { s with childrenIds := s.childrenIds ++ [idx.length] }
          else s) : Section).parentId = s.parentId := by
    intro s
    split <;> exact ⟨rfl, rfl, rfl⟩
  constructor
  · refine idsOk_append (idsOk_updateSec h.ids ?_) ?_
    · intro s
      rfl
    · rw [hlenU]
  · intro s' hs' p hp
    rcases List.mem_append.mp hs' with hs | hs
    · obtain ⟨s, hsm, rfl⟩ := List.mem_map.mp hs
      obtain ⟨hid, hdp, hpp⟩ := hproj s
      rw [hpp] at hp
      obtain ⟨h1, h2⟩ := h.parentOk s hsm p hp
      have hplen2 : p < idx.length := Nat.lt_trans h1 (mem_id_lt h.ids hsm)
      rw [hid, hdp, hgetDepth p hplen2]
      exact ⟨h1, h2⟩
    · rw [List.mem_singleton] at hs
      subst hs
      cases hp
      rw [hgetDepth parent hplen]
      exact ⟨hplen, hdep⟩
  · intro s' hs' c hc
    rcases List.mem_append.mp hs' with hs | hs
    · obtain ⟨s, hsm, rfl⟩ := List.mem_map.mp hs
      by_cases hidp : s.id = parent
      · rw [if_pos hidp] at hc ⊢
        simp only at hc
        rcases List.mem_append.mp hc with hcold | hcnew
        · obtain ⟨h1, h2, h3, h4⟩ := h.childOk s hsm c hcold
          rw [hlen, hgetPar c h2, hgetDepth c h2]
          exact ⟨h1, Nat.lt_succ_of_lt h2, h3, h4⟩
        · rw [List.mem_singleton] at hcnew
          subst hcnew
          have hseq : getSec idx parent = s := by
            rw [← hidp]
            exact getSec_of_mem h.ids hsm
          rw [hlen, hgn]
          refine ⟨?_, Nat.lt_succ_self _, ?_, ?_⟩
          · show s.id < idx.length
            rw [hidp]
            exact hplen
          · show (some parent : Option Nat) = some s.id
            rw [hidp]
          · show s.depth < d
            rw [← hseq]
            exact hdep
      · rw [if_neg hidp] at hc ⊢
        obtain ⟨h1, h2, h3, h4⟩ := h.childOk s hsm c hc
        rw [hlen, hgetPar c h2, hgetDepth c h2]
        exact ⟨h1, Nat.lt_succ_of_lt h2, h3, h4⟩
    · rw [List.mem_singleton] at hs
      subst hs
      cases hc
  · intro i hi
    rw [hlen]
    rcases List.mem_cons.mp hi with hi | hi
    · subst hi
      rw [hgn]
      exact ⟨Nat.lt_succ_self _, fun hcon => SType.noConfusion hcon⟩
    · obtain ⟨h1, h2⟩ := h.stackOk i (hsub i hi)
      rw [hgetTy i h1]
      exact ⟨Nat.lt_succ_of_lt h1, h2⟩
  · intro i hi
    cases hi
    rw [hlen, hgn]
    exact ⟨Nat.lt_succ_self _, fun hcon => SType.noConfusion hcon⟩
  · intro j hj
    rw [hlen]
    exact Nat.lt_succ_of_lt (h.structOk j hj)
  · intro s' hs'
    rcases List.mem_append.mp hs' with hs | hs
    · obtain ⟨s, hsm, rfl⟩ := List.mem_map.mp hs
      obtain ⟨hid, _, hpp⟩ := hproj s
      rw [hid, hpp]
      exact h.rootsOk s hsm
    · rw [List.mem_singleton] at hs
      subst hs
      show (some parent : Option Nat) = none ↔ idx.length ∈ struc
      constructor
      · intro hcon
        cases hcon
      · intro hmem
        exact absurd (h.structOk _ hmem) (Nat.lt_irrefl _)

/-- One visitor step preserves the invariant. -/
theorem step_inv {icb : Bool} {st : PState} (hInv : Inv st) (b : Block) :
    Inv (step icb st b) := by
  cases b with
  | other =>
    rw [step_other]
    exact hInv
  | heading d t0 pos =>
    by_cases ht : trim t0 = []
    · rw [step_heading_empty ht]
      exact hInv
    · cases hdw : (pushHeadingText d (trim t0) st).stack.dropWhile
          (fun i => d ≤ (getSec (pushHeadingText d (trim t0) st).sectionsIndex i).depth) with
      | nil =>
        rw [step_heading_root ht hdw]
        show InvC _ _ _ _
        simp only [pushHeadingText_sectionsIndex, pushHeadingText_struct]
        exact invc_heading_root hInv d (trim t0) pos
      | cons parent rest =>
        rw [step_heading_parent ht hdw]
        show InvC _ _ _ _
        simp only [pushHeadingText_sectionsIndex, pushHeadingText_struct]
        apply invc_heading_parent hInv
        · intro i hi
          rw [← hdw] at hi
          have hsub0 := dropWhile_subset i hi
          rw [pushHeadingText_stack] at hsub0
          exact hsub0
        · have hfalse := dropWhile_head_false hdw
          rw [pushHeadingText_sectionsIndex] at hfalse
          simp only [decide_eq_false_iff_not, not_le] at hfalse
          exact hfalse
  | paragraph t0 pos =>
    by_cases ht : trim t0 = []
    · rw [step_paragraph_empty ht]
      exact hInv
    · cases hcur : st.current with
      | some i =>
        rw [step_paragraph_current ht hcur]
        show InvC _ _ _ _
        exact invc_update_content hInv i _
      | none =>
        rw [step_paragraph_orphan ht hcur]
        show InvC _ _ _ _
        exact invc_paragraph_orphan hInv _
  | code v lang pos =>
    cases icb with
    | false =>
      rw [step_code_off]
      exact hInv
    | true =>
      by_cases ht : trim v = []
      · rw [step_code_empty ht]
        exact hInv
      · cases hcur : st.current with
        | some i =>
          rw [step_code_current ht hcur]
          show InvC _ _ _ _
          exact invc_update_content hInv i _
        | none =>
          rw [step_code_orphan ht hcur]
          exact hInv

/-- The invariant holds after folding any block list. -/
theorem foldl_inv {icb : Bool} (blocks : List Block) {st : PState} (h : Inv st) :
    Inv (blocks.foldl (step icb) st) := by
  induction blocks generalizing st with
  | nil => exact h
  | cons b bs ih =>
    rw [List.foldl_cons]
    exact ih (step_inv h b)

/-- `_findSectionInStructure(structure, text, type, sectionsIndex)`: scan the
flat index for the first section of the given type whose normalized text
contains the normalized search text (the `structure` argument is unused by
the JS loop, which iterates `sectionsIndex`). -/
def findSectionInStructure (sectionsIndex : List Section) (text : Txt)
    (ty : SType) : Option Section :=
  sectionsIndex.find? (fun s => s.stype == ty &&
    decide (normalizeText text <:+: normalizeText (s.text.getD [])))

/-- The parent relation between stored sections of an index. -/
def parentRel (idx : List Section) (a b : Section) : Prop :=
  a ∈ idx ∧ b ∈ idx ∧ a.parentId = some b.id

theorem extract_sectionsIndex (blocks : List Block) (icb : Bool) :
    (extractMarkdownFields blocks icb).sectionsIndex
      = (blocks.foldl (step icb) initState).sectionsIndex := rfl

theorem extract_struct (blocks : List Block) (icb : Bool) :
    (extractMarkdownFields blocks icb).struct
      = (blocks.foldl (step icb) initState).struct.map
          (getSec (blocks.foldl (step icb) initState).sectionsIndex) := rfl

theorem parentRel_id_lt {idx : List Section} {struc stack : List Nat}
    {cur : Option Nat} (h : InvC idx struc stack cur) {a b : Section}
    (hab : parentRel idx a b) : b.id < a.id :=
  (h.parentOk a hab.1 b.id hab.2.2).1

theorem transGen_parentRel_id_lt {idx : List Section} {struc stack : List Nat}
    {cur : Option Nat} (h : InvC idx struc stack cur) {a b : Section}
    (hab : Relation.TransGen (parentRel idx) a b) : b.id < a.id := by
  induction hab with
  | single hr => exact parentRel_id_lt h hr
  | tail _ hr ih => exact Nat.lt_trans (parentRel_id_lt h hr) ih

/-- C5: for every parsed document, every `parentId`, every entry of
`childrenIds` and every id returned by the section lookup used for snippet
attribution resolves in `sectionsIndex`; depth strictly increases from
parent to child; the parent relation is acyclic; and `structure` holds
exactly the parentless roots. -/
theorem extractMarkdownFields_tree_integrity (blocks : List Block) (icb : Bool) :
    (∀ s ∈ (extractMarkdownFields blocks icb).sectionsIndex, ∀ p,
        s.parentId = some p →
        ∃ sp ∈ (extractMarkdownFields blocks icb).sectionsIndex,
          sp.id = p ∧ sp.depth < s.depth) ∧
    (∀ s ∈ (extractMarkdownFields blocks icb).sectionsIndex, ∀ c ∈ s.childrenIds,
        ∃ sc ∈ (extractMarkdownFields blocks icb).sectionsIndex,
          sc.id = c ∧ sc.parentId = some s.id ∧ s.depth < sc.depth) ∧
    (∀ s, ¬ Relation.TransGen
        (parentRel (extractMarkdownFields blocks icb).sectionsIndex) s s) ∧
    (∀ s ∈ (extractMarkdownFields blocks icb).struct,
        s ∈ (extractMarkdownFields blocks icb).sectionsIndex ∧ s.parentId = none) ∧
    (∀ t ty s, findSectionInStructure
        (extractMarkdownFields blocks icb).sectionsIndex t ty = some s →
        s ∈ (extractMarkdownFields blocks icb).sectionsIndex) := by
  have hInv : Inv (blocks.foldl (step icb) initState) := foldl_inv blocks inv_init
  rw [extract_sectionsIndex] at *
  rw [extract_struct]
  refine ⟨?_, ?_, ?_, ?_, ?_⟩
  · intro s hs p hp
    obtain ⟨h1, h2⟩ := hInv.parentOk s hs p hp
    have hplen : p < (blocks.foldl (step icb) initState).sectionsIndex.length :=
      Nat.lt_trans h1 (mem_id_lt hInv.ids hs)
    exact ⟨getSec _ p, getSec_mem hplen, getSec_id hInv.ids hplen, h2⟩
  · intro s hs c hc
    obtain ⟨h1, h2, h3, h4⟩ := hInv.childOk s hs c hc
    exact ⟨getSec _ c, getSec_mem h2, getSec_id hInv.ids h2, h3, h4⟩
  · intro s hcyc
    exact absurd (transGen_parentRel_id_lt hInv hcyc) (Nat.lt_irrefl _)
  · intro s hs
    obtain ⟨j, hj, rfl⟩ := List.mem_map.mp hs
    have hjlen := hInv.structOk j hj
    refine ⟨getSec_mem hjlen, ?_⟩
    have hid := getSec_id hInv.ids hjlen
    apply (hInv.rootsOk _ (getSec_mem hjlen)).mpr
    rw [hid]
    exact hj
  · intro t ty s hfind
    exact List.mem_of_find?_eq_some hfind

/-! ### Pre-heading content: one synthetic body section per paragraph -/

/-- The synthetic body section created for one pre-heading paragraph. -/
def orphanSection (n : Nat) (t : Txt) (pos : Option Pos) : Section :=
  ⟨n, SType.body, 0, none, [⟨CType.paragraph, t, none, pos⟩], [], none, none⟩

/-- The body sections created for a run of pre-heading paragraphs, ids
starting at `n`. -/
def orphans : Nat → List (Txt × Option Pos) → List Section
  | _, [] => []
  | n, a :: rest => orphanSection n (trim a.1) a.2 :: orphans (n + 1) rest

theorem orphans_length (n : Nat) (ts : List (Txt × Option Pos)) :
    (orphans n ts).length = ts.length := by
  induction ts generalizing n with
  | nil => rfl
  | cons a rest ih =>
    show (orphans n (a :: rest)).length = rest.length + 1
    rw [orphans]
    rw [List.length_cons, ih]

theorem orphans_stype {n : Nat} {ts : List (Txt × Option Pos)} :
    ∀ s ∈ orphans n ts, s.stype = SType.body := by
  induction ts generalizing n with
  | nil => intro s hs; cases hs
  | cons a rest ih =>
    intro s hs
    rw [orphans] at hs
    rcases List.mem_cons.mp hs with hs | hs
    · subst hs
      rfl
    · exact ih s hs

/-- Folding a run of nonempty pre-heading paragraphs from a state with no
current section appends one synthetic body section per paragraph. -/
theorem foldl_paragraphs {icb : Bool} (ts : List (Txt × Option Pos)) :
    ∀ st : PState, st.current = none → (∀ a ∈ ts, trim a.1 ≠ []) →
    (ts.map (fun a => Block.paragraph a.1 a.2)).foldl (step icb) st
      = { st with
          bodyParts := st.bodyParts ++ ts.map (fun a => trim a.1),
          struct := st.struct ++ List.range' st.sectionsIndex.length ts.length,
          sectionsIndex := st.sectionsIndex ++ orphans st.sectionsIndex.length ts } := by
  induction ts with
  | nil =>
    intro st hcur _
    simp only [List.map_nil, List.foldl_nil, List.range', List.append_nil, orphans]
  | cons a rest ih =>
    intro st hcur hts
    rw [List.map_cons, List.foldl_cons,
      step_paragraph_orphan (hts a (List.mem_cons_self a rest)) hcur]
    rw [ih ({ st with
        bodyParts := st.bodyParts ++ [trim a.1],
        struct := st.struct ++ [st.sectionsIndex.length],
        sectionsIndex := st.sectionsIndex ++
          [⟨st.sectionsIndex.length, SType.body, 0, none,
            [⟨CType.paragraph, trim a.1, none, a.2⟩], [], none, none⟩] })
      hcur (fun x hx => hts x (List.mem_cons_of_mem a hx))]
    simp only [List.length_append, List.length_cons, List.length_nil,
      List.map_cons, List.range'_succ, orphans, orphanSection, Nat.zero_add,
      List.append_assoc, List.cons_append, List.nil_append]

theorem getElem?_eq_getSec {idx : List Section} {k : Nat} (hk : k < idx.length) :
    idx[k]? = some (getSec idx k) := by
  unfold getSec
  rw [List.getElem?_eq_getElem hk]

/-- Every index position is recovered by mapping `getSec` over the range of
positions. -/
theorem range_map_getSec (idx : List Section) :
    (List.range idx.length).map (getSec idx) = idx := by
  apply List.ext_getElem?
  intro i
  rw [List.getElem?_map]
  by_cases hi : i < idx.length
  · rw [List.getElem?_range hi, getElem?_eq_getSec hi]
    rfl
  · rw [List.getElem?_eq_none (by simpa using Nat.le_of_not_lt hi),
      List.getElem?_eq_none (by exact Nat.le_of_not_lt hi)]
    rfl

theorem step_len_mono {icb : Bool} {st : PState} (b : Block) :
    st.sectionsIndex.length ≤ (step icb st b).sectionsIndex.length := by
  cases b with
  | other =>
    rw [step_other]
  | heading d t0 pos =>
    by_cases ht : trim t0 = []
    · rw [step_heading_empty ht]
    · cases hdw : (pushHeadingText d (trim t0) st).stack.dropWhile
          (fun i => d ≤ (getSec (pushHeadingText d (trim t0) st).sectionsIndex i).depth) with
      | nil =>
        rw [step_heading_root ht hdw]
        show st.sectionsIndex.length ≤ ((pushHeadingText d (trim t0) st).sectionsIndex ++ _).length
        rw [List.length_append, pushHeadingText_sectionsIndex]
        omega
      | cons parent rest =>
        rw [step_heading_parent ht hdw]
        show st.sectionsIndex.length ≤ (updateSec _ _ _ ++ _).length
        rw [List.length_append, updateSec_length, pushHeadingText_sectionsIndex]
        omega
  | paragraph t0 pos =>
    by_cases ht : trim t0 = []
    · rw [step_paragraph_empty ht]
    · cases hcur : st.current with
      | some i =>
        rw [step_paragraph_current ht hcur]
        show st.sectionsIndex.length ≤ (updateSec _ _ _).length
        rw [updateSec_length]
      | none =>
        rw [step_paragraph_orphan ht hcur]
        show st.sectionsIndex.length ≤ (st.sectionsIndex ++ _).length
        rw [List.length_append]
        omega
  | code v lang pos =>
    cases icb with
    | false => rw [step_code_off]
    | true =>
      by_cases ht : trim v = []
      · rw [step_code_empty ht]
      · cases hcur : st.current with
        | some i =>
          rw [step_code_current ht hcur]
          show st.sectionsIndex.length ≤ (updateSec _ _ _).length
          rw [updateSec_length]
        | none =>
          rw [step_code_orphan ht hcur]

theorem step_struct_append {icb : Bool} {st : PState} (b : Block) :
    ∃ t, (step icb st b).struct = st.struct ++ t := by
  cases b with
  | other =>
    rw [step_other]
    exact ⟨[], (List.append_nil _).symm⟩
  | heading d t0 pos =>
    by_cases ht : trim t0 = []
    · rw [step_heading_empty ht]
      exact ⟨[], (List.append_nil _).symm⟩
    · cases hdw : (pushHeadingText d (trim t0) st).stack.dropWhile
          (fun i => d ≤ (getSec (pushHeadingText d (trim t0) st).sectionsIndex i).depth) with
      | nil =>
        rw [step_heading_root ht hdw]
        exact ⟨[st.sectionsIndex.length], by
          show (pushHeadingText d (trim t0) st).struct ++ _ = _
          rw [pushHeadingText_struct]⟩
      | cons parent rest =>
        rw [step_heading_parent ht hdw]
        exact ⟨[], by
          show (pushHeadingText d (trim t0) st).struct = _
          rw [pushHeadingText_struct, List.append_nil]⟩
  | paragraph t0 pos =>
    by_cases ht : trim t0 = []
    · rw [step_paragraph_empty ht]
      exact ⟨[], (List.append_nil _).symm⟩
    · cases hcur : st.current with
      | some i =>
        rw [step_paragraph_current ht hcur]
        exact ⟨[], (List.append_nil _).symm⟩
      | none =>
        rw [step_paragraph_orphan ht hcur]
        exact ⟨[st.sectionsIndex.length], rfl⟩
  | code v lang pos =>
    cases icb with
    | false =>
      rw [step_code_off]
      exact ⟨[], (List.append_nil _).symm⟩
    | true =>
      by_cases ht : trim v = []
      · rw [step_code_empty ht]
        exact ⟨[], (List.append_nil _).symm⟩
      · cases hcur : st.current with
        | some i =>
          rw [step_code_current ht hcur]
          exact ⟨[], (List.append_nil _).symm⟩
        | none =>
          rw [step_code_orphan ht hcur]
          exact ⟨[], (List.append_nil _).symm⟩

/-- Sections of type `body` (the synthetic pre-heading sections) are never
modified by later visitor steps: only heading sections sit on the stack or
in `currentSection`. -/
theorem step_body_frozen {icb : Bool} {st : PState} (hInv : Inv st) (b : Block)
    {k : Nat} (hk : k < st.sectionsIndex.length)
    (hb : (getSec st.sectionsIndex k).stype = SType.body) :
    getSec (step icb st b).sectionsIndex k = getSec st.sectionsIndex k := by
  cases b with
  | other =>
    rw [step_other]
  | heading d t0 pos =>
    by_cases ht : trim t0 = []
    · rw [step_heading_empty ht]
    · cases hdw : (pushHeadingText d (trim t0) st).stack.dropWhile
          (fun i => d ≤ (getSec (pushHeadingText d (trim t0) st).sectionsIndex i).depth) with
      | nil =>
        rw [step_heading_root ht hdw]
        show getSec ((pushHeadingText d (trim t0) st).sectionsIndex ++ _) k = _
        rw [pushHeadingText_sectionsIndex, getSec_append_left hk]
      | cons parent rest =>
        rw [step_heading_parent ht hdw]
        show getSec (updateSec (pushHeadingText d (trim t0) st).sectionsIndex _ _ ++ _) k = _
        rw [pushHeadingText_sectionsIndex]
        have hparent : parent ∈ st.stack := by
          have hmem : parent ∈ parent :: rest := List.mem_cons_self _ _
          rw [← hdw] at hmem
          have hsub0 := dropWhile_subset parent hmem
          rw [pushHeadingText_stack] at hsub0
          exact hsub0
        have hpty := (hInv.stackOk parent hparent).2
        have hkid : (getSec st.sectionsIndex k).id = k := getSec_id hInv.ids hk
        have hne : (getSec st.sectionsIndex k).id ≠ parent := by
          rw [hkid]
          intro hkp
          subst hkp
          exact hpty hb
        rw [getSec_append_left (by rw [updateSec_length]; exact hk),
          getSec_updateSec hk, if_neg hne]
  | paragraph t0 pos =>
    by_cases ht : trim t0 = []
    · rw [step_paragraph_empty ht]
    · cases hcur : st.current with
      | some i =>
        rw [step_paragraph_current ht hcur]
        have hity := (hInv.currentOk i hcur).2
        have hkid : (getSec st.sectionsIndex k).id = k := getSec_id hInv.ids hk
        have hne : (getSec st.sectionsIndex k).id ≠ i := by
          rw [hkid]
          intro hki
          subst hki
          exact hity hb
        show getSec (updateSec st.sectionsIndex _ _) k = _
        rw [getSec_updateSec hk, if_neg hne]
      | none =>
        rw [step_paragraph_orphan ht hcur]
        show getSec (st.sectionsIndex ++ _) k = _
        rw [getSec_append_left hk]
  | code v lang pos =>
    cases icb with
    | false =>
      rw [step_code_off]
    | true =>
      by_cases ht : trim v = []
      · rw [step_code_empty ht]
      · cases hcur : st.current with
        | some i =>
          rw [step_code_current ht hcur]
          have hity := (hInv.currentOk i hcur).2
          have hkid : (getSec st.sectionsIndex k).id = k := getSec_id hInv.ids hk
          have hne : (getSec st.sectionsIndex k).id ≠ i := by
            rw [hkid]
            intro hki
            subst hki
            exact hity hb
          show getSec (updateSec st.sectionsIndex _ _) k = _
          rw [getSec_updateSec hk, if_neg hne]
        | none =>
          rw [step_code_orphan ht hcur]

theorem foldl_len_mono {icb : Bool} (blocks : List Block) (st : PState) :
    st.sectionsIndex.length ≤ (blocks.foldl (step icb) st).sectionsIndex.length := by
  induction blocks generalizing st with
  | nil => exact Nat.le_refl _
  | cons b bs ih =>
    rw [List.foldl_cons]
    exact Nat.le_trans (step_len_mono b) (ih _)

theorem foldl_struct_append {icb : Bool} (blocks : List Block) (st : PState) :
    ∃ t, (blocks.foldl (step icb) st).struct = st.struct ++ t := by
  induction blocks generalizing st with
  | nil => exact ⟨[], (List.append_nil _).symm⟩
  | cons b bs ih =>
    rw [List.foldl_cons]
    obtain ⟨t1, ht1⟩ := @step_struct_append icb st b
    obtain ⟨t2, ht2⟩ := ih (step icb st b)
    exact ⟨t1 ++ t2, by rw [ht2, ht1, List.append_assoc]⟩

theorem foldl_body_frozen {icb : Bool} (blocks : List Block) {st : PState}
    (hInv : Inv st) {k : Nat} (hk : k < st.sectionsIndex.length)
    (hb : (getSec st.sectionsIndex k).stype = SType.body) :
    getSec ((blocks.foldl (step icb) st)).sectionsIndex k = getSec st.sectionsIndex k := by
  induction blocks generalizing st with
  | nil => rfl
  | cons b bs ih =>
    rw [List.foldl_cons]
    have hfroz := @step_body_frozen icb st hInv b k hk hb
    have hk2 : k < (step icb st b).sectionsIndex.length :=
      Nat.lt_of_lt_of_le hk (step_len_mono b)
    have hb2 : (getSec (step icb st b).sectionsIndex k).stype = SType.body := by
      rw [hfroz]
      exact hb
    rw [ih (step_inv hInv b) hk2 hb2, hfroz]

/-- Two parser states that agree on the tree components (`structure`,
`stack`, `sectionsIndex`, `currentSection`).  The visitor's effect on the
tree components depends only on these, never on the accumulated text
fields. -/
def sameTree (s1 s2 : PState) : Prop :=
  s1.struct = s2.struct ∧ s1.stack = s2.stack ∧
  s1.sectionsIndex = s2.sectionsIndex ∧ s1.current = s2.current

theorem step_sameTree {icb : Bool} {s1 s2 : PState} (h : sameTree s1 s2)
    (b : Block) : sameTree (step icb s1 b) (step icb s2 b) := by
  obtain ⟨h1, h2, h3, h4⟩ := h
  cases b with
  | other =>
    rw [step_other, step_other]
    exact ⟨h1, h2, h3, h4⟩
  | heading d t0 pos =>
    by_cases ht : trim t0 = []
    · rw [step_heading_empty ht, step_heading_empty ht]
      exact ⟨h1, h2, h3, h4⟩
    · have hdw2 : (pushHeadingText d (trim t0) s2).stack.dropWhile
          (fun i => d ≤ (getSec (pushHeadingText d (trim t0) s2).sectionsIndex i).depth)
          = (pushHeadingText d (trim t0) s1).stack.dropWhile
          (fun i => d ≤ (getSec (pushHeadingText d (trim t0) s1).sectionsIndex i).depth) := by
        rw [pushHeadingText_stack, pushHeadingText_stack, pushHeadingText_sectionsIndex,
          pushHeadingText_sectionsIndex, h2, h3]
      cases hdw : (pushHeadingText d (trim t0) s1).stack.dropWhile
          (fun i => d ≤ (getSec (pushHeadingText d (trim t0) s1).sectionsIndex i).depth) with
      | nil =>
        rw [step_heading_root ht hdw, step_heading_root ht (hdw2.trans hdw)]
        refine ⟨?_, ?_, ?_, ?_⟩ <;>
          simp only [pushHeadingText_struct, pushHeadingText_sectionsIndex, h1, h3]
      | cons parent rest =>
        rw [step_heading_parent ht hdw, step_heading_parent ht (hdw2.trans hdw)]
        refine ⟨?_, ?_, ?_, ?_⟩ <;>
          simp only [pushHeadingText_struct, pushHeadingText_sectionsIndex, h1, h3]
  | paragraph t0 pos =>
    by_cases ht : trim t0 = []
    · rw [step_paragraph_empty ht, step_paragraph_empty ht]
      exact ⟨h1, h2, h3, h4⟩
    · cases hcur : s1.current with
      | some i =>
        rw [step_paragraph_current ht hcur, step_paragraph_current ht (h4 ▸ hcur)]
        exact ⟨h1, h2, by simp only [h3], h4⟩
      | none =>
        rw [step_paragraph_orphan ht hcur, step_paragraph_orphan ht (h4 ▸ hcur)]
        exact ⟨by simp only [h1, h3], h2, by simp only [h3], h4⟩
  | code v lang pos =>
    cases icb with
    | false =>
      rw [step_code_off, step_code_off]
      exact ⟨h1, h2, h3, h4⟩
    | true =>
      by_cases ht : trim v = []
      · rw [step_code_empty ht, step_code_empty ht]
        exact ⟨h1, h2, h3, h4⟩
      · cases hcur : s1.current with
        | some i =>
          rw [step_code_current ht hcur, step_code_current ht (h4 ▸ hcur)]
          exact ⟨h1, h2, by simp only [h3], h4⟩
        | none =>
          rw [step_code_orphan ht hcur, step_code_orphan ht (h4 ▸ hcur)]
          exact ⟨h1, h2, h3, h4⟩

theorem foldl_sameTree {icb : Bool} (blocks : List Block) {s1 s2 : PState}
    (h : sameTree s1 s2) :
    sameTree (blocks.foldl (step icb) s1) (blocks.foldl (step icb) s2) := by
  induction blocks generalizing s1 s2 with
  | nil => exact h
  | cons b bs ih =>
    rw [List.foldl_cons, List.foldl_cons]
    exact ih (step_sameTree h b)

/-- C2 (amended): content before any heading does not go to a single lazy
body-root.  Each nonempty pre-heading paragraph creates its own synthetic
body section (type `body`, depth 0) holding exactly that paragraph; these
sections start `structure` in order; and a pre-heading code block (with
`includeCodeBlocks` on) changes neither `sectionsIndex` nor `structure`,
i.e. it is attached to no section. -/
theorem extractMarkdownFields_preheading (icb : Bool)
    (ts : List (Txt × Option Pos)) (rest : List Block)
    (hts : ∀ a ∈ ts, trim a.1 ≠ []) :
    ((extractMarkdownFields (ts.map (fun a => Block.paragraph a.1 a.2) ++ rest)
        icb).sectionsIndex.take ts.length = orphans 0 ts) ∧
    ((extractMarkdownFields (ts.map (fun a => Block.paragraph a.1 a.2) ++ rest)
        icb).struct.take ts.length = orphans 0 ts) ∧
    (∀ (v : Txt) (lang : Option Txt) (pos : Option Pos) (rest2 : List Block),
      (extractMarkdownFields (Block.code v lang pos :: rest2) true).sectionsIndex
        = (extractMarkdownFields rest2 true).sectionsIndex ∧
      (extractMarkdownFields (Block.code v lang pos :: rest2) true).struct
        = (extractMarkdownFields rest2 true).struct) := by
  have hstK : (ts.map (fun a => Block.paragraph a.1 a.2)).foldl (step icb) initState
      = ⟨[], [], [], [], [], [], [], ts.map (fun a => trim a.1),
         List.range' 0 ts.length, [], orphans 0 ts, none⟩ := by
    rw [@foldl_paragraphs icb ts initState rfl hts]
    rfl
  have hsplit : (ts.map (fun a => Block.paragraph a.1 a.2) ++ rest).foldl (step icb)
      initState
      = rest.foldl (step icb)
          (⟨[], [], [], [], [], [], [], ts.map (fun a => trim a.1),
            List.range' 0 ts.length, [], orphans 0 ts, none⟩ : PState) := by
    rw [List.foldl_append, hstK]
  have hInvK : Inv (⟨[], [], [], [], [], [], [], ts.map (fun a => trim a.1),
      List.range' 0 ts.length, [], orphans 0 ts, none⟩ : PState) := by
    have hi := @foldl_inv icb (ts.map (fun a => Block.paragraph a.1 a.2))
      initState inv_init
    rw [hstK] at hi
    exact hi
  have horlen : (orphans 0 ts).length = ts.length := orphans_length 0 ts
  have hfroz : ∀ j, j < ts.length →
      getSec ((rest.foldl (step icb)
        (⟨[], [], [], [], [], [], [], ts.map (fun a => trim a.1),
          List.range' 0 ts.length, [], orphans 0 ts, none⟩ : PState))).sectionsIndex j
      = getSec (orphans 0 ts) j := by
    intro j hj
    have hk : j < (orphans 0 ts).length := by rw [horlen]; exact hj
    exact foldl_body_frozen rest hInvK hk (orphans_stype _ (getSec_mem hk))
  have hlenS : ts.length ≤ ((rest.foldl (step icb)
      (⟨[], [], [], [], [], [], [], ts.map (fun a => trim a.1),
        List.range' 0 ts.length, [], orphans 0 ts, none⟩ : PState))).sectionsIndex.length := by
    have := @foldl_len_mono icb rest
      (⟨[], [], [], [], [], [], [], ts.map (fun a => trim a.1),
        List.range' 0 ts.length, [], orphans 0 ts, none⟩ : PState)
    rw [show ((⟨[], [], [], [], [], [], [], ts.map (fun a => trim a.1),
      List.range' 0 ts.length, [], orphans 0 ts, none⟩ : PState)).sectionsIndex.length
        = ts.length from horlen] at this
    exact this
  have htake : ((rest.foldl (step icb)
      (⟨[], [], [], [], [], [], [], ts.map (fun a => trim a.1),
        List.range' 0 ts.length, [], orphans 0 ts, none⟩ : PState))).sectionsIndex.take
        ts.length = orphans 0 ts := by
    apply List.ext_getElem?
    intro i
    by_cases hi : i < ts.length
    · rw [List.getElem?_take_of_lt hi]
      have hiS : i < ((rest.foldl (step icb)
          (⟨[], [], [], [], [], [], [], ts.map (fun a => trim a.1),
            List.range' 0 ts.length, [], orphans 0 ts, none⟩ : PState))).sectionsIndex.length :=
        Nat.lt_of_lt_of_le hi hlenS
      have hio : i < (orphans 0 ts).length := by rw [horlen]; exact hi
      rw [getElem?_eq_getSec hiS, hfroz i hi, ← getElem?_eq_getSec hio]
    · have hni := Nat.le_of_not_lt hi
      rw [List.getElem?_eq_none (by
          have := List.length_take_le ts.length ((rest.foldl (step icb)
            (⟨[], [], [], [], [], [], [], ts.map (fun a => trim a.1),
              List.range' 0 ts.length, [], orphans 0 ts, none⟩ : PState))).sectionsIndex
          omega),
        List.getElem?_eq_none (by rw [horlen]; exact hni)]
  refine ⟨?_, ?_, ?_⟩
  · rw [extract_sectionsIndex, hsplit]
    exact htake
  · rw [extract_struct, hsplit]
    obtain ⟨t, hT⟩ := @foldl_struct_append icb rest
      (⟨[], [], [], [], [], [], [], ts.map (fun a => trim a.1),
        List.range' 0 ts.length, [], orphans 0 ts, none⟩ : PState)
    rw [← List.map_take, hT]
    have htk : ((List.range' 0 ts.length ++ t).take ts.length) = List.range' 0 ts.length :=
      List.take_left' (List.length_range' 0 1 ts.length)
    rw [show (⟨[], [], [], [], [], [], [], ts.map (fun a => trim a.1),
      List.range' 0 ts.length, [], orphans 0 ts, none⟩ : PState).struct
        = List.range' 0 ts.length from rfl, htk]
    have hcong : (List.range' 0 ts.length).map (getSec ((rest.foldl (step icb)
        (⟨[], [], [], [], [], [], [], ts.map (fun a => trim a.1),
          List.range' 0 ts.length, [], orphans 0 ts, none⟩ : PState))).sectionsIndex)
        = (List.range' 0 ts.length).map (getSec (orphans 0 ts)) := by
      apply List.map_congr_left
      intro j hj
      rw [List.mem_range'_1] at hj
      exact hfroz j (by omega)
    rw [hcong, ← List.range_eq_range', show ts.length = (orphans 0 ts).length from horlen.symm]
    exact range_map_getSec _
  · intro v lang pos rest2
    by_cases hv : trim v = []
    · have hfold : (Block.code v lang pos :: rest2).foldl (step true) initState
          = rest2.foldl (step true) initState := by
        rw [List.foldl_cons, step_code_empty hv]
      constructor
      · rw [extract_sectionsIndex, extract_sectionsIndex, hfold]
      · rw [extract_struct, extract_struct, hfold]
    · have hfold : (Block.code v lang pos :: rest2).foldl (step true) initState
          = rest2.foldl (step true)
              { initState with bodyParts := initState.bodyParts ++ [trim v] } := by
        rw [List.foldl_cons, step_code_orphan hv rfl]
      have hsame : sameTree
          (rest2.foldl (step true)
            { initState with bodyParts := initState.bodyParts ++ [trim v] })
          (rest2.foldl (step true) initState) :=
        foldl_sameTree rest2 ⟨rfl, rfl, rfl, rfl⟩
      constructor
      · rw [extract_sectionsIndex, extract_sectionsIndex, hfold]
        exact hsame.2.2.1
      · rw [extract_struct, extract_struct, hfold]
        rw [hsame.1, hsame.2.2.1]

/-- C2 counterexample: a document whose first two blocks are paragraphs
before any heading produces two synthetic body sections at the head of
`structure`, not a single lazily-created body root. -/
theorem extractMarkdownFields_two_body_roots :
    ((extractMarkdownFields
        [Block.paragraph [0x61] none, Block.paragraph [0x62] none]
        false).struct.countP (fun s => s.stype == SType.body)) = 2 ∧
    (2 : Nat) ≠ 1 := by
  constructor
  · decide
  · decide

theorem extractMarkdownFields_preheading_witness :
    (∀ a ∈ [(([0x61] : Txt), (none : Option Pos))], trim a.1 ≠ []) ∧
    (extractMarkdownFields
        ([(([0x61] : Txt), (none : Option Pos))].map
          (fun a => Block.paragraph a.1 a.2) ++ []) false).sectionsIndex.take 1
      = orphans 0 [(([0x61] : Txt), (none : Option Pos))] :=
  ⟨by decide,
    (extractMarkdownFields_preheading false [([0x61], none)] [] (by decide)).1⟩

theorem extractMarkdownFields_tree_integrity_witness :
    ∃ sp ∈ (extractMarkdownFields
        [Block.heading 1 [0x61] none, Block.heading 2 [0x62] none]
        false).sectionsIndex,
      sp.id = 0 ∧
      sp.depth < (⟨1, SType.h 2, 2, some [0x62], [], [], some 0, none⟩ : Section).depth :=
  (extractMarkdownFields_tree_integrity
      [Block.heading 1 [0x61] none, Block.heading 2 [0x62] none] false).1
    ⟨1, SType.h 2, 2, some [0x62], [], [], some 0, none⟩ (by decide) 0 rfl

/-! ## Storage and search (`SearchMix.js`)

The FTS5 table `docs_fts` is a list of `Record`s.  SQLite itself (the MATCH
evaluator and the weighted `bm25` value) is external, so `search` takes the
match predicate and the rank of a record as parameters; the `WHERE` clause,
the `LIKE`-based tag filter, the `min_score` comparison, `ORDER BY rank`
and `LIMIT` are embedded faithfully. -/

/-- One row of the `docs_fts` table. -/
structure Record where
  path : Txt
  title : Txt
  h1 : Txt
  h2 : Txt
  h3 : Txt
  h4 : Txt
  h5 : Txt
  h6 : Txt
  body : Txt
  titleNormalized : Txt
  h1Normalized : Txt
  h2Normalized : Txt
  h3Normalized : Txt
  h4Normalized : Txt
  h5Normalized : Txt
  h6Normalized : Txt
  bodyNormalized : Txt
  collection : Txt
  struct : List Section
  sectionsIndex : List Section
  mtime : Option Int
deriving DecidableEq

/-- SQLite `LIKE`: `%` matches any run, `_` any single character, ordinary
characters match up to ASCII case folding (SQLite's default case-insensitive
`LIKE`). -/
def likeMatchF : Nat → Txt → Txt → Bool
  | 0, _, _ => false
  | _ + 1, [], s => s.isEmpty
  | fuel + 1, p :: ps, s =>
    if p = 37 then
      likeMatchF fuel ps s ||
        (match s with
         | [] => false
         | _ :: s2 => likeMatchF fuel (37 :: ps) s2)
    else
      match s with
      | [] => false
      | c :: s2 =>
        (if p = 95 then true else toLowerCp p == toLowerCp c) && likeMatchF fuel ps s2

def likeMatch (p s : Txt) : Bool := likeMatchF (p.length + s.length + 1) p s

/-- The fuel argument is irrelevant once it exceeds the total length. -/
theorem likeMatchF_eq : ∀ {f1 f2 : Nat} {p s : Txt},
    p.length + s.length < f1 → p.length + s.length < f2 →
    likeMatchF f1 p s = likeMatchF f2 p s := by
  intro f1
  induction f1 with
  | zero => intro f2 p s h1 _; exact absurd h1 (Nat.not_lt_zero _)
  | succ f ih =>
    intro f2 p s h1 h2
    cases f2 with
    | zero => exact absurd h2 (Nat.not_lt_zero _)
    | succ g =>
      cases p with
      | nil => rfl
      | cons p ps =>
        simp only [likeMatchF]
        simp only [List.length_cons] at h1 h2
        by_cases hp : p = 37
        · rw [if_pos hp, if_pos hp]
          congr 1
          · refine ih ?_ ?_ <;> omega
          · cases s with
            | nil => rfl
            | cons c s2 =>
              simp only [List.length_cons] at h1 h2
              refine ih ?_ ?_ <;> (simp only [List.length_cons]; omega)
        · rw [if_neg hp, if_neg hp]
          cases s with
          | nil => rfl
          | cons c s2 =>
            simp only [List.length_cons] at h1 h2
            show ((if p = 95 then true else toLowerCp p == toLowerCp c)
                && likeMatchF f ps s2)
              = ((if p = 95 then true else toLowerCp p == toLowerCp c)
                && likeMatchF g ps s2)
            congr 1
            refine ih ?_ ?_ <;> omega

/-- `JSON.stringify` of one tag string (tags without characters needing
JSON escapes). -/
def jsonString (t : Txt) : Txt := 34 :: (t ++ [34])

/-- The comma-joined member list of `JSON.stringify(tags)`. -/
def jsonInner : List Txt → Txt
  | [] => []
  | [t] => jsonString t
  | t :: t2 :: ts => jsonString t ++ 44 :: jsonInner (t2 :: ts)

/-- `JSON.stringify(tags)` as stored in the `collection` column. -/
def jsonTags (tags : List Txt) : Txt := 91 :: (jsonInner tags ++ [93])

/-- The SQL parameter `%"${tag}"%` of the tag filter. -/
def tagLikePattern (t : Txt) : Txt := 37 :: 34 :: (t ++ [34, 37])

/-- The tag-filter clause of `search`:
`collection = '[]' OR collection LIKE %"t1"% OR ...`. -/
def tagFilterOk (filterTags : List Txt) (collection : Txt) : Bool :=
  (collection == ([91, 93] : Txt)) ||
    filterTags.any (fun t => likeMatch (tagLikePattern t) collection)

/-- The full `WHERE` clause of `search`: the FTS5 MATCH (external, passed as
a predicate), the tag filter when a non-empty tag list was given, and
`bm25(...) >= minScore` when `minScore` is set. -/
def searchWhere (matchQ : Record → Bool) (rank : Record → Int)
    (minScore : Option Int) (tags : Option (List Txt)) (r : Record) : Bool :=
  matchQ r &&
  (match tags with
   | some (t :: ts) => tagFilterOk (t :: ts) r.collection
   | _ => true) &&
  (match minScore with
   | some m => decide (m ≤ rank r)
   | none => true)

/-- `search(query, options)`, restricted to the record selection it
performs: filter by the `WHERE` clause, `ORDER BY rank` ascending,
`LIMIT ?`. -/
def search (docs : List Record) (matchQ : Record → Bool) (rank : Record → Int)
    (limit : Nat) (minScore : Option Int) (tags : Option (List Txt)) :
    List Record :=
  ((docs.filter (searchWhere matchQ rank minScore tags)).insertionSort
      (fun a b => rank a ≤ rank b)).take limit

/-- `_detectLanguage`: `null` below 100 characters, else `franc` on the
first 1000 characters, with `"und"` mapped to `null` (`franc` itself is an
external collaborator, passed as a parameter). -/
def detectLanguage (franc : Txt → Txt) (text : Txt) : Option Txt :=
  if text.length < 100 then none
  else if franc (text.take 1000) = [117, 110, 100] then none
  else some (franc (text.take 1000))

/-- The tag list stored by `_indexMarkdown`: the caller tags plus the
detected language of `body || markdown` when determinable and not already
present. -/
def autoTags (franc : Txt → Txt) (markdown body : Txt) (tags : List Txt) :
    List Txt :=
  match detectLanguage franc (if body = [] then markdown else body) with
  | some l => if l ∈ tags then tags else tags ++ [l]
  | none => tags

/-- `_indexMarkdown(filePath, markdown, tags, mtime)`: parse, auto-tag the
language, store raw fields verbatim (`body` is the whole original markdown)
and normalized fields via `_normalizeText` (the normalized body is the
normalized markdown, kept position-aligned).  `blocks` stands for the
remark parse of `markdown` (external). -/
def indexMarkdown (franc : Txt → Txt) (includeCodeBlocks : Bool)
    (filePath : Txt) (markdown : Txt) (blocks : List Block) (tags : List Txt)
    (mtime : Option Int) : Record :=
  { path := filePath
    title := (extractMarkdownFields blocks includeCodeBlocks).title
    h1 := (extractMarkdownFields blocks includeCodeBlocks).h1
    h2 := (extractMarkdownFields blocks includeCodeBlocks).h2
    h3 := (extractMarkdownFields blocks includeCodeBlocks).h3
    h4 := (extractMarkdownFields blocks includeCodeBlocks).h4
    h5 := (extractMarkdownFields blocks includeCodeBlocks).h5
    h6 := (extractMarkdownFields blocks includeCodeBlocks).h6
    body := markdown
    titleNormalized := normalizeText (extractMarkdownFields blocks includeCodeBlocks).title
    h1Normalized := normalizeText (extractMarkdownFields blocks includeCodeBlocks).h1
    h2Normalized := normalizeText (extractMarkdownFields blocks includeCodeBlocks).h2
    h3Normalized := normalizeText (extractMarkdownFields blocks includeCodeBlocks).h3
    h4Normalized := normalizeText (extractMarkdownFields blocks includeCodeBlocks).h4
    h5Normalized := normalizeText (extractMarkdownFields blocks includeCodeBlocks).h5
    h6Normalized := normalizeText (extractMarkdownFields blocks includeCodeBlocks).h6
    bodyNormalized := normalizeText markdown
    collection := jsonTags (autoTags franc markdown
      (extractMarkdownFields blocks includeCodeBlocks).body tags)
    struct := (extractMarkdownFields blocks includeCodeBlocks).struct
    sectionsIndex := (extractMarkdownFields blocks includeCodeBlocks).sectionsIndex
    mtime := mtime }

/-! ### Characterizing the LIKE-based tag filter -/

theorem likeMatch_nil (s : Txt) : likeMatch [] s = s.isEmpty := rfl

theorem likeMatch_percent (ps : Txt) (s : Txt) :
    likeMatch (37 :: ps) s
      = (likeMatch ps s ||
          (match s with | [] => false | _ :: s2 => likeMatch (37 :: ps) s2)) := by
  conv_lhs => rw [likeMatch]; simp only [likeMatchF]
  rw [if_pos trivial]
  congr 1
  · refine likeMatchF_eq ?_ ?_ <;> (try simp only [List.length_cons]) <;> omega
  · cases s with
    | nil => rfl
    | cons c s2 =>
      show likeMatchF _ (37 :: ps) s2 = likeMatch (37 :: ps) s2
      rw [likeMatch]
      refine likeMatchF_eq ?_ ?_ <;> (try simp only [List.length_cons]) <;> omega

theorem likeMatch_cons {p : Nat} (hp : p ≠ 37) (ps : Txt) (s : Txt) :
    likeMatch (p :: ps) s
      = (match s with
         | [] => false
         | c :: s2 =>
           (if p = 95 then true else toLowerCp p == toLowerCp c) && likeMatch ps s2) := by
  conv_lhs => rw [likeMatch]; simp only [likeMatchF]
  rw [if_neg hp]
  cases s with
  | nil => rfl
  | cons c s2 =>
    show (_ && likeMatchF _ ps s2) = (_ && likeMatch ps s2)
    rw [likeMatch]
    congr 1
    refine likeMatchF_eq ?_ ?_ <;> (try simp only [List.length_cons]) <;> omega

/-- ASCII lowercase of a whole string (SQLite `LIKE` folds ASCII case). -/
def lowerTxt (s : Txt) : Txt := s.map toLowerCp

/-- A literal free of the LIKE wildcards. -/
def litFree (l : Txt) : Prop := ∀ c ∈ l, c ≠ 37 ∧ c ≠ 95

theorem likeMatch_percent_iff {ps : Txt} {s : Txt} :
    likeMatch (37 :: ps) s = true ↔ ∃ i, likeMatch ps (s.drop i) = true := by
  induction s with
  | nil =>
    rw [likeMatch_percent]
    show (likeMatch ps [] || false) = true ↔ _
    rw [Bool.or_false]
    constructor
    · intro h
      exact ⟨0, h⟩
    · intro ⟨i, hi⟩
      rw [List.drop_nil] at hi
      exact hi
  | cons c s2 ih =>
    rw [likeMatch_percent]
    show (likeMatch ps (c :: s2) || likeMatch (37 :: ps) s2) = true ↔ _
    constructor
    · intro h
      rcases Bool.or_eq_true _ _ |>.mp h with h | h
      · exact ⟨0, h⟩
      · obtain ⟨i, hi⟩ := ih.mp h
        exact ⟨i + 1, hi⟩
    · intro ⟨i, hi⟩
      apply Bool.or_eq_true _ _ |>.mpr
      cases i with
      | zero => exact Or.inl hi
      | succ j => exact Or.inr (ih.mpr ⟨j, hi⟩)

theorem likeMatch_lit_iff {lit : Txt} (hlit : litFree lit) {ps : Txt} {s : Txt} :
    likeMatch (lit ++ ps) s = true ↔
      ∃ s1 s2, s = s1 ++ s2 ∧ lowerTxt s1 = lowerTxt lit ∧ likeMatch ps s2 = true := by
  induction lit generalizing s with
  | nil =>
    simp only [List.nil_append]
    constructor
    · intro h
      exact ⟨[], s, rfl, rfl, h⟩
    · intro ⟨s1, s2, hs, hl, hm⟩
      have h1 : s1 = [] := by
        have := congrArg List.length hl
        simp only [lowerTxt, List.length_map, List.length_nil] at this
        exact List.eq_nil_of_length_eq_zero this
      subst h1
      rw [List.nil_append] at hs
      subst hs
      exact hm
  | cons p lit2 ih =>
    have hp := hlit p (List.mem_cons_self _ _)
    have hlit2 : litFree lit2 := fun c hc => hlit c (List.mem_cons_of_mem _ hc)
    rw [List.cons_append, likeMatch_cons hp.1]
    cases s with
    | nil =>
      show (false = true) ↔ _
      simp only [Bool.false_eq_true, false_iff]
      intro ⟨s1, s2, hs, hl, hm⟩
      have h1 : s1 ++ s2 = [] := hs.symm
      have h2 : s1 = [] := (List.append_eq_nil.mp h1).1
      subst h2
      have := congrArg List.length hl
      simp [lowerTxt] at this
    | cons c s2 =>
      show ((if p = 95 then true else toLowerCp p == toLowerCp c)
          && likeMatch (lit2 ++ ps) s2) = true ↔ _
      rw [if_neg hp.2]
      simp only [Bool.and_eq_true, beq_iff_eq]
      rw [ih hlit2]
      constructor
      · intro ⟨hpc, u, v, huv, hl, hm⟩
        refine ⟨c :: u, v, by rw [huv]; rfl, ?_, hm⟩
        show toLowerCp c :: lowerTxt u = toLowerCp p :: lowerTxt lit2
        rw [hl, hpc]
      · intro ⟨s1, v, hs, hl, hm⟩
        cases s1 with
        | nil =>
          have := congrArg List.length hl
          simp [lowerTxt] at this
        | cons a u =>
          rw [List.cons_append] at hs
          injection hs with h1 h2
          have hl2 : toLowerCp a :: lowerTxt u = toLowerCp p :: lowerTxt lit2 := hl
          injection hl2 with hl3 hl4
          subst h1
          exact ⟨hl3.symm, u, v, h2, hl4, hm⟩

theorem likeMatch_single_percent (s : Txt) : likeMatch [37] s = true := by
  rw [likeMatch_percent_iff]
  refine ⟨s.length, ?_⟩
  rw [List.drop_length, likeMatch_nil]
  rfl

/-- `%lit%` matches `s` exactly when `s` has a segment that equals `lit` up
to ASCII case. -/
theorem likeMatch_pattern_iff {lit : Txt} (hlit : litFree lit) {s : Txt} :
    likeMatch (37 :: (lit ++ [37])) s = true ↔
      ∃ s1 s2 s3, s = s1 ++ s2 ++ s3 ∧ lowerTxt s2 = lowerTxt lit := by
  rw [likeMatch_percent_iff]
  constructor
  · intro ⟨i, hi⟩
    rw [likeMatch_lit_iff hlit] at hi
    obtain ⟨s2, s3, hsplit, hl, _⟩ := hi
    refine ⟨s.take i, s2, s3, ?_, hl⟩
    conv_lhs => rw [← List.take_append_drop i s]
    rw [hsplit, List.append_assoc]
  · intro ⟨s1, s2, s3, hs, hl⟩
    refine ⟨s1.length, ?_⟩
    rw [likeMatch_lit_iff hlit]
    refine ⟨s2, s3, ?_, hl, likeMatch_single_percent s3⟩
    rw [hs, List.append_assoc, List.drop_left]

/-- Transfer an infix occurrence on lowered strings back to a segment split
of the original string. -/
theorem exists_split_of_infix_lower {pat s : Txt}
    (h : lowerTxt pat <:+: lowerTxt s) :
    ∃ s1 s2 s3, s = s1 ++ s2 ++ s3 ∧ lowerTxt s2 = lowerTxt pat := by
  obtain ⟨u, v, huv⟩ := h
  refine ⟨s.take u.length, (s.drop u.length).take pat.length,
    (s.drop u.length).drop pat.length, ?_, ?_⟩
  · rw [List.append_assoc, List.take_append_drop, List.take_append_drop]
  · show ((s.drop u.length).take pat.length).map toLowerCp = lowerTxt pat
    rw [List.map_take, List.map_drop]
    have hms : s.map toLowerCp = u ++ (lowerTxt pat ++ v) := by
      rw [← List.append_assoc]
      exact huv.symm
    rw [hms, List.drop_left]
    exact List.take_left' (by rw [lowerTxt, List.length_map])

/-- Conversely, a segment split whose middle is lower-equal to `pat` gives
an infix occurrence on the lowered strings. -/
theorem infix_lower_of_split {pat s1 s2 s3 : Txt}
    (hl : lowerTxt s2 = lowerTxt pat) :
    lowerTxt pat <:+: lowerTxt (s1 ++ s2 ++ s3) :=
  ⟨lowerTxt s1, lowerTxt s3, by
    simp only [lowerTxt, List.map_append] at hl ⊢
    rw [hl]⟩

/-- Tag strings free of JSON and LIKE metacharacters (double quote, comma,
percent, underscore, backslash, brackets). -/
def goodChar (c : Nat) : Prop :=
  c ≠ 34 ∧ c ≠ 44 ∧ c ≠ 37 ∧ c ≠ 95 ∧ c ≠ 92 ∧ c ≠ 91 ∧ c ≠ 93

def goodTag (t : Txt) : Prop := ∀ c ∈ t, goodChar c

instance : DecidablePred goodChar := fun c => by
  unfold goodChar
  infer_instance

instance : DecidablePred goodTag := fun t => by
  unfold goodTag
  infer_instance

/-- An infix of an append sits in the left part, in the right part, or
straddles the boundary. -/
theorem infix_append_cases {l x y : Txt} (h : l <:+: x ++ y) :
    l <:+: x ∨ l <:+: y ∨
    ∃ l1 l2, l = l1 ++ l2 ∧ l1 ≠ [] ∧ l2 ≠ [] ∧ l1 <:+ x ∧ l2 <+: y := by
  obtain ⟨u, v, huv⟩ := h
  by_cases h1 : u.length + l.length ≤ x.length
  · left
    have hxt : x.take (u.length + l.length) = u ++ l := by
      have hq : (x ++ y).take (u.length + l.length) = u ++ l := by
        rw [← huv]
        exact List.take_left' (by rw [List.length_append])
      rw [List.take_append_of_le_length h1] at hq
      exact hq
    refine ⟨u, x.drop (u.length + l.length), ?_⟩
    show u ++ l ++ x.drop (u.length + l.length) = x
    conv_rhs => rw [← List.take_append_drop (u.length + l.length) x]
    rw [hxt]
  · by_cases h2 : x.length ≤ u.length
    · right
      left
      have hyy : (x ++ y).drop x.length = y := List.drop_left' rfl
      rw [← huv, List.append_assoc, List.drop_append_of_le_length h2] at hyy
      refine ⟨u.drop x.length, v, ?_⟩
      rw [← List.append_assoc] at hyy
      exact hyy
    · right
      right
      have hxu : u.length < x.length := Nat.lt_of_not_le h2
      have hxl : x.length - u.length < l.length := by omega
      refine ⟨l.take (x.length - u.length), l.drop (x.length - u.length),
        (List.take_append_drop _ l).symm, ?_, ?_, ?_, ?_⟩
      · intro hnil
        have hq := congrArg List.length hnil
        rw [List.length_take] at hq
        simp only [List.length_nil] at hq
        omega
      · intro hnil
        have hq := congrArg List.length hnil
        rw [List.length_drop] at hq
        simp only [List.length_nil] at hq
        omega
      · have hxx : (x ++ y).take x.length = x := List.take_left' rfl
        rw [← huv, List.append_assoc, List.take_append_eq_append_take,
          List.take_of_length_le (Nat.le_of_lt hxu),
          List.take_append_of_le_length (Nat.le_of_lt hxl)] at hxx
        exact ⟨u, hxx⟩
      · have hyy : (x ++ y).drop x.length = y := List.drop_left' rfl
        rw [← huv, List.append_assoc, List.drop_append_eq_append_drop,
          List.drop_eq_nil_of_le (Nat.le_of_lt hxu),
          List.nil_append,
          List.drop_append_of_le_length (Nat.le_of_lt hxl)] at hyy
        exact ⟨v, hyy⟩

theorem getElem?_append_cons (p : Txt) (c : Nat) (r : Txt) :
    (p ++ c :: r)[p.length]? = some c := by
  rw [List.getElem?_append_right (Nat.le_refl _)]
  simp

/-- A quoted tag occurring inside another quoted tag (both free of quotes)
is that tag. -/
theorem jsonString_infix_jsonString {t u : Txt} (ht : goodTag t) (hu : goodTag u)
    (h : jsonString t <:+: jsonString u) : t = u := by
  obtain ⟨a, b, hab⟩ := h
  have ha : a = [] := by
    cases a with
    | nil => rfl
    | cons c a2 =>
      exfalso
      simp only [jsonString, List.cons_append, List.cons.injEq] at hab
      obtain ⟨hc, hrest⟩ := hab
      by_cases hlen : a2.length < u.length
      · have h34 : (u ++ [34])[a2.length]? = some 34 := by
          rw [← hrest, List.getElem?_append_left (by simp)]
          exact getElem?_append_cons a2 34 (t ++ [34])
        rw [List.getElem?_append_left hlen] at h34
        exact (hu 34 (List.getElem?_mem h34)).1 rfl
      · have hlenEq := congrArg List.length hrest
        simp only [List.length_append, List.length_cons] at hlenEq
        omega
  subst ha
  simp only [List.nil_append, jsonString, List.cons_append, List.cons.injEq] at hab
  obtain ⟨-, hrest⟩ := hab
  by_cases hlen : t.length < u.length
  · exfalso
    have h34 : (u ++ [34])[t.length]? = some 34 := by
      rw [← hrest, List.append_assoc]
      exact getElem?_append_cons t 34 b
    rw [List.getElem?_append_left hlen] at h34
    exact (hu 34 (List.getElem?_mem h34)).1 rfl
  · have hlenEq := congrArg List.length hrest
    simp only [List.length_append, List.length_cons] at hlenEq
    have hb0 : b = [] := List.eq_nil_of_length_eq_zero (by omega)
    subst hb0
    rw [List.append_nil] at hrest
    exact (List.append_left_inj _).mp hrest

/-- A quoted tag that is an infix of the member list of a stringified
array of quote-free tags is one of them. -/
theorem jsonString_infix_inner {t : Txt} {tags : List Txt} (ht : goodTag t)
    (htags : ∀ u ∈ tags, goodTag u) (h : jsonString t <:+: jsonInner tags) :
    t ∈ tags := by
  induction tags with
  | nil =>
    rw [jsonInner, List.infix_nil] at h
    exact absurd h (by simp [jsonString])
  | cons t1 ts ih =>
    cases ts with
    | nil =>
      rw [jsonInner] at h
      exact List.mem_singleton.mpr
        (jsonString_infix_jsonString ht (htags t1 (by simp)) h)
    | cons t2 ts2 =>
      rw [jsonInner] at h
      rcases infix_append_cases h with h1 | h1 | ⟨l1, l2, hl, hn1, hn2, hs, hp⟩
      · have := jsonString_infix_jsonString ht (htags t1 (by simp)) h1
        rw [this]
        exact List.mem_cons_self t1 _
      · rcases List.infix_cons_iff.mp h1 with hpre | hinf
        · exfalso
          obtain ⟨s, hs⟩ := hpre
          simp only [jsonString, List.cons_append, List.cons.injEq] at hs
          exact absurd hs.1 (by decide)
        · exact List.mem_cons_of_mem t1
            (ih (fun u hu => htags u (List.mem_cons_of_mem t1 hu)) hinf)
      · exfalso
        cases l2 with
        | nil => exact hn2 rfl
        | cons c l2' =>
          obtain ⟨s, hcs⟩ := hp
          simp only [List.cons_append, List.cons.injEq] at hcs
          have hc : c = 44 := hcs.1
          have hmem : c ∈ jsonString t := by
            rw [hl]
            exact List.mem_append_right l1 (List.mem_cons_self c l2')
          rw [jsonString] at hmem
          rcases List.mem_cons.mp hmem with h34 | hmem2
          · rw [hc] at h34
            exact absurd h34 (by decide)
          · rcases List.mem_append.mp hmem2 with hmt | h34
            · exact (ht c hmt).2.1 hc
            · rw [List.mem_singleton, hc] at h34
              exact absurd h34 (by decide)

/-- Conversely, every member tag occurs quoted as an infix of the member
list. -/
theorem jsonString_infix_inner_of_mem {t : Txt} {tags : List Txt}
    (h : t ∈ tags) : jsonString t <:+: jsonInner tags := by
  induction tags with
  | nil => exact absurd h (List.not_mem_nil t)
  | cons t1 ts ih =>
    cases ts with
    | nil =>
      rw [List.mem_singleton] at h
      rw [h, jsonInner]
    | cons t2 ts2 =>
      rw [jsonInner]
      rcases List.mem_cons.mp h with h1 | h1
      · rw [h1]
        exact (List.prefix_append _ _).isInfix
      · exact (ih h1).trans
          (((List.suffix_cons 44 _).trans (List.suffix_append _ _)).isInfix)

/-- Membership characterization of the stored collection blob: the quoted
tag is an infix of `JSON.stringify tags` iff the tag is in the list. -/
theorem jsonString_infix_tags_iff {t : Txt} {tags : List Txt} (ht : goodTag t)
    (htags : ∀ u ∈ tags, goodTag u) :
    jsonString t <:+: jsonTags tags ↔ t ∈ tags := by
  constructor
  · intro h
    rw [jsonTags] at h
    rcases List.infix_cons_iff.mp h with hpre | hinf
    · exfalso
      obtain ⟨s, hs⟩ := hpre
      simp only [jsonString, List.cons_append, List.cons.injEq] at hs
      exact absurd hs.1 (by decide)
    · rcases infix_append_cases hinf with h1 | h1 | ⟨l1, l2, hl, hn1, hn2, hsuf, hp⟩
      · exact jsonString_infix_inner ht htags h1
      · exfalso
        have hle := h1.length_le
        simp [jsonString] at hle
      · exfalso
        cases l2 with
        | nil => exact hn2 rfl
        | cons c l2' =>
          obtain ⟨s, hcs⟩ := hp
          simp only [List.cons_append, List.cons.injEq] at hcs
          have hc : c = 93 := hcs.1
          have hmem : c ∈ jsonString t := by
            rw [hl]
            exact List.mem_append_right l1 (List.mem_cons_self c l2')
          rw [jsonString] at hmem
          rcases List.mem_cons.mp hmem with h34 | hmem2
          · rw [hc] at h34
            exact absurd h34 (by decide)
          · rcases List.mem_append.mp hmem2 with hmt | h34
            · exact (ht c hmt).2.2.2.2.2.2 hc
            · rw [List.mem_singleton, hc] at h34
              exact absurd h34 (by decide)
  · intro h
    rw [jsonTags]
    exact List.infix_cons
      ((jsonString_infix_inner_of_mem h).trans ((List.prefix_append _ _).isInfix))

theorem toLowerCp_quote : toLowerCp 34 = 34 := rfl

theorem toLowerCp_comma : toLowerCp 44 = 44 := rfl

theorem lowerTxt_cons (c : Nat) (s : Txt) :
    lowerTxt (c :: s) = toLowerCp c :: lowerTxt s := rfl

theorem lowerTxt_append (a b : Txt) :
    lowerTxt (a ++ b) = lowerTxt a ++ lowerTxt b := by
  simp [lowerTxt]

/-- Lowercasing commutes with quoting. -/
theorem lowerTxt_jsonString (t : Txt) :
    lowerTxt (jsonString t) = jsonString (lowerTxt t) := by
  simp [lowerTxt, jsonString, toLowerCp_quote]

/-- Lowercasing commutes with the member list. -/
theorem lowerTxt_jsonInner (tags : List Txt) :
    lowerTxt (jsonInner tags) = jsonInner (tags.map lowerTxt) := by
  induction tags with
  | nil => rfl
  | cons t1 ts ih =>
    cases ts with
    | nil => simp [jsonInner, lowerTxt_jsonString]
    | cons t2 ts2 =>
      simp only [jsonInner, List.map_cons]
      rw [lowerTxt_append, lowerTxt_cons, lowerTxt_jsonString, toLowerCp_comma, ih]
      simp [jsonInner]

/-- Lowercasing commutes with the whole stringified array. -/
theorem lowerTxt_jsonTags (tags : List Txt) :
    lowerTxt (jsonTags tags) = jsonTags (tags.map lowerTxt) := by
  rw [jsonTags, jsonTags, lowerTxt_cons, lowerTxt_append, lowerTxt_jsonInner]
  rfl

theorem goodChar_toLowerCp {c : Nat} (h : goodChar c) : goodChar (toLowerCp c) := by
  unfold toLowerCp
  split
  · next hc =>
    simp only [Bool.and_eq_true, decide_eq_true_eq] at hc
    exact ⟨by omega, by omega, by omega, by omega, by omega, by omega, by omega⟩
  · exact h

theorem goodTag_lowerTxt {t : Txt} (h : goodTag t) : goodTag (lowerTxt t) := by
  intro c hc
  obtain ⟨c0, hc0, rfl⟩ := List.mem_map.mp hc
  exact goodChar_toLowerCp (h c0 hc0)

/-- A quoted metacharacter-free tag is free of LIKE wildcards. -/
theorem litFree_jsonString {t : Txt} (ht : goodTag t) : litFree (jsonString t) := by
  intro c hc
  rw [jsonString] at hc
  rcases List.mem_cons.mp hc with h | h
  · subst h
    exact ⟨by decide, by decide⟩
  · rcases List.mem_append.mp h with h | h
    · exact ⟨(ht c h).2.2.1, (ht c h).2.2.2.1⟩
    · rw [List.mem_singleton] at h
      subst h
      exact ⟨by decide, by decide⟩

theorem tagLikePattern_eq (t : Txt) :
    tagLikePattern t = 37 :: (jsonString t ++ [37]) := by
  simp [tagLikePattern, jsonString]

/-- One LIKE disjunct of the tag filter holds iff the document tag list has
a member equal to the filter tag up to ASCII case. -/
theorem likeMatch_tag_iff {t : Txt} {docTags : List Txt} (ht : goodTag t)
    (hd : ∀ u ∈ docTags, goodTag u) :
    likeMatch (tagLikePattern t) (jsonTags docTags) = true ↔
      ∃ u ∈ docTags, lowerTxt u = lowerTxt t := by
  rw [tagLikePattern_eq, likeMatch_pattern_iff (litFree_jsonString ht)]
  constructor
  · intro hs
    obtain ⟨s1, s2, s3, hsplit, hls⟩ := hs
    have hinf : lowerTxt (jsonString t) <:+: lowerTxt (jsonTags docTags) := by
      rw [hsplit]
      exact infix_lower_of_split hls
    rw [lowerTxt_jsonString, lowerTxt_jsonTags] at hinf
    have hm := (jsonString_infix_tags_iff (goodTag_lowerTxt ht)
      (fun u hu => by
        obtain ⟨u0, hu0, rfl⟩ := List.mem_map.mp hu
        exact goodTag_lowerTxt (hd u0 hu0))).mp hinf
    obtain ⟨u0, hu0, hequ⟩ := List.mem_map.mp hm
    exact ⟨u0, hu0, hequ⟩
  · intro hs
    obtain ⟨u, hu, hlu⟩ := hs
    have hinf : jsonString (lowerTxt t) <:+: jsonTags (docTags.map lowerTxt) := by
      refine (jsonString_infix_tags_iff (goodTag_lowerTxt ht) ?_).mpr ?_
      · intro u' hu'
        obtain ⟨u0, hu0, rfl⟩ := List.mem_map.mp hu'
        exact goodTag_lowerTxt (hd u0 hu0)
      · rw [← hlu]
        exact List.mem_map_of_mem lowerTxt hu
    rw [← lowerTxt_jsonString, ← lowerTxt_jsonTags] at hinf
    exact exists_split_of_infix_lower hinf

/-- The stored collection blob equals the two-byte string `[]` exactly for
an empty tag list. -/
theorem jsonTags_eq_nil_iff {tags : List Txt} :
    jsonTags tags = [91, 93] ↔ tags = [] := by
  cases tags with
  | nil => simp [jsonTags, jsonInner]
  | cons t ts =>
    cases ts with
    | nil => simp [jsonTags, jsonInner, jsonString]
    | cons t2 ts2 => simp [jsonTags, jsonInner, jsonString]

/-- Full semantics of the tag-filter clause on a stored collection blob of
metacharacter-free tags: it accepts exactly the untagged records and those
with a tag matching some filter tag up to ASCII case. -/
theorem tagFilterOk_iff {filterTags docTags : List Txt}
    (hf : ∀ t ∈ filterTags, goodTag t) (hd : ∀ u ∈ docTags, goodTag u) :
    tagFilterOk filterTags (jsonTags docTags) = true ↔
      (docTags = [] ∨ ∃ u ∈ docTags, ∃ t ∈ filterTags, lowerTxt u = lowerTxt t) := by
  unfold tagFilterOk
  rw [Bool.or_eq_true, List.any_eq_true]
  constructor
  · intro h
    rcases h with h | ⟨t, htm, hlm⟩
    · left
      rw [beq_iff_eq] at h
      exact jsonTags_eq_nil_iff.mp h
    · right
      obtain ⟨u, hu, hlu⟩ := (likeMatch_tag_iff (hf t htm) hd).mp hlm
      exact ⟨u, hu, t, htm, hlu⟩
  · intro h
    rcases h with h | ⟨u, hu, t, htm, hlu⟩
    · left
      rw [beq_iff_eq]
      exact jsonTags_eq_nil_iff.mpr h
    · right
      exact ⟨t, htm, (likeMatch_tag_iff (hf t htm) hd).mpr ⟨u, hu, hlu⟩⟩

/-- A record with every column empty, used to instantiate concrete search
scenarios. -/
def blankRecord : Record :=
  { path := [], title := [], h1 := [], h2 := [], h3 := [], h4 := [], h5 := [],
    h6 := [], body := [], titleNormalized := [], h1Normalized := [],
    h2Normalized := [], h3Normalized := [], h4Normalized := [],
    h5Normalized := [], h6Normalized := [], bodyNormalized := [],
    collection := [], struct := [], sectionsIndex := [], mtime := none }

/-- C4 (amended): for a search with a non-empty tags option, over a record
whose stored collection is `JSON.stringify docTags` with all tags free of
JSON/LIKE metacharacters, the record satisfies the WHERE clause iff its tag
list is empty or some stored tag equals some filter tag up to ASCII case —
the LIKE-based filter compares tags case-insensitively, not by exact
set intersection. -/
theorem search_tag_filter_characterization
    (matchQ : Record → Bool) (rank : Record → Int) (minScore : Option Int)
    (t0 : Txt) (fts : List Txt) (r : Record) (docTags : List Txt)
    (hcol : r.collection = jsonTags docTags)
    (hf : ∀ t ∈ t0 :: fts, goodTag t) (hd : ∀ u ∈ docTags, goodTag u)
    (hmq : matchQ r = true)
    (hms : match minScore with | some m => m ≤ rank r | none => True) :
    (searchWhere matchQ rank minScore (some (t0 :: fts)) r = true ↔
      (docTags = [] ∨ ∃ u ∈ docTags, ∃ t ∈ t0 :: fts, lowerTxt u = lowerTxt t)) := by
  unfold searchWhere
  rw [hmq, hcol]
  simp only [Bool.true_and]
  cases minScore with
  | none =>
    show (tagFilterOk (t0 :: fts) (jsonTags docTags) && true) = true ↔
      (docTags = [] ∨ ∃ u ∈ docTags, ∃ t ∈ t0 :: fts, lowerTxt u = lowerTxt t)
    rw [Bool.and_true]
    exact tagFilterOk_iff hf hd
  | some m =>
    have hm : m ≤ rank r := hms
    show (tagFilterOk (t0 :: fts) (jsonTags docTags) && decide (m ≤ rank r)) = true ↔
      (docTags = [] ∨ ∃ u ∈ docTags, ∃ t ∈ t0 :: fts, lowerTxt u = lowerTxt t)
    rw [decide_eq_true hm, Bool.and_true]
    exact tagFilterOk_iff hf hd

/-- C4 counterexample: a record stored with tag list `["X"]` is returned by
a search with tags option `["x"]` although the two tag sets are disjoint
and the stored tag set is non-empty — SQLite LIKE compares ASCII letters
case-insensitively, so the filter is not exact set intersection. -/
theorem search_tag_filter_not_exact_intersection :
    search [{ blankRecord with collection := jsonTags [[0x58]] }]
        (fun _ => true) (fun _ => (0 : Int)) 10 none (some [[0x78]])
      = [{ blankRecord with collection := jsonTags [[0x58]] }] ∧
    (([0x58] : Txt) ≠ [0x78] ∧ ([[0x58]] : List Txt) ≠ []) := by
  refine ⟨?_, by decide, by decide⟩
  decide

/-- C4 witness: the characterization applied to a concrete record tagged
`["x"]` and the filter `["x"]`. -/
theorem search_tag_filter_characterization_witness :
    (searchWhere (fun _ => true) (fun _ => (0 : Int)) none (some [[0x78]])
        { blankRecord with collection := jsonTags [[0x78]] } = true ↔
      (([[0x78]] : List Txt) = [] ∨
        ∃ u ∈ ([[0x78]] : List Txt), ∃ t ∈ ([[0x78]] : List Txt),
          lowerTxt u = lowerTxt t)) :=
  search_tag_filter_characterization (fun _ => true) (fun _ => (0 : Int)) none
    [0x78] [] { blankRecord with collection := jsonTags [[0x78]] } [[0x78]]
    rfl (by decide) (by decide) rfl trivial

/-- C3 counterexample: with `min_score = 10`, a matching record of rank 5
(better than 10 under the smaller-is-better convention, so `rank ≤
min_score` holds) is not returned: the SQL filter is `bm25(...) >=
min_score`, which discards it. -/
theorem search_min_score_drops_low_rank :
    search [blankRecord] (fun _ => true) (fun _ => (5 : Int)) 10 (some 10) none
        = [] ∧ (5 : Int) ≤ 10 := by
  refine ⟨?_, by decide⟩
  decide

/-- C3 (amended): `min_score` acts as a lower bound on the BM25 rank: every
record returned by `search` with `min_score = m` has rank ≥ m, and (when
everything passing the WHERE clause fits within the limit) the returned
records are exactly the matching stored records with rank ≥ m. -/
theorem search_min_score_semantics
    (docs : List Record) (matchQ : Record → Bool) (rank : Record → Int)
    (limit : Nat) (m : Int) (r : Record)
    (hlen : (docs.filter (searchWhere matchQ rank (some m) none)).length ≤ limit) :
    (∀ q ∈ search docs matchQ rank limit (some m) none, m ≤ rank q) ∧
    (r ∈ search docs matchQ rank limit (some m) none ↔
      (r ∈ docs ∧ matchQ r = true ∧ m ≤ rank r)) := by
  have hwhere : ∀ q : Record,
      searchWhere matchQ rank (some m) none q = true ↔
        (matchQ q = true ∧ m ≤ rank q) := by
    intro q
    unfold searchWhere
    show (matchQ q && true && decide (m ≤ rank q)) = true ↔ _
    rw [Bool.and_true, Bool.and_eq_true, decide_eq_true_eq]
  constructor
  · intro q hq
    have h1 : q ∈ (docs.filter
        (searchWhere matchQ rank (some m) none)).insertionSort
          (fun a b => rank a ≤ rank b) :=
      List.mem_of_mem_take hq
    rw [List.mem_insertionSort, List.mem_filter] at h1
    exact ((hwhere q).mp h1.2).2
  · have hlen2 : ((docs.filter
        (searchWhere matchQ rank (some m) none)).insertionSort
          (fun a b => rank a ≤ rank b)).length ≤ limit := by
      rw [List.Perm.length_eq (List.perm_insertionSort _ _)]
      exact hlen
    unfold search
    rw [List.take_of_length_le hlen2, List.mem_insertionSort, List.mem_filter]
    rw [hwhere r]

/-- C3 witness: the amended semantics applied to a single matching record
of rank 7 against `min_score = 5`. -/
theorem search_min_score_semantics_witness :
    (∀ q ∈ search [blankRecord] (fun _ => true) (fun _ => (7 : Int)) 10
        (some 5) none, (5 : Int) ≤ (fun _ => (7 : Int)) q) ∧
    (blankRecord ∈ search [blankRecord] (fun _ => true) (fun _ => (7 : Int)) 10
        (some 5) none ↔
      (blankRecord ∈ [blankRecord] ∧ (fun _ => true) blankRecord = true ∧
        (5 : Int) ≤ (fun _ => (7 : Int)) blankRecord)) :=
  search_min_score_semantics [blankRecord] (fun _ => true) (fun _ => (7 : Int))
    10 5 blankRecord (by decide)

/-- C9: a document indexed with an empty user tag list whose parsed body
has at least 100 characters and a determinable `franc` language gets that
language code appended as its only stored tag; its stored tag set is
therefore non-empty, and it is excluded from every tag-filtered search
whose (metacharacter-free) filter tags all differ from the language code
up to ASCII case. -/
theorem indexMarkdown_language_autotag
    (franc : Txt → Txt) (icb : Bool) (filePath markdown : Txt)
    (blocks : List Block) (mtime : Option Int)
    (matchQ : Record → Bool) (rank : Record → Int) (minScore : Option Int)
    (t0 : Txt) (fts : List Txt)
    (hlen : 100 ≤ (extractMarkdownFields blocks icb).body.length)
    (hund : franc ((extractMarkdownFields blocks icb).body.take 1000)
      ≠ [117, 110, 100])
    (hlang : goodTag (franc ((extractMarkdownFields blocks icb).body.take 1000)))
    (hf : ∀ t ∈ t0 :: fts, goodTag t)
    (hdiff : ∀ t ∈ t0 :: fts, lowerTxt t
      ≠ lowerTxt (franc ((extractMarkdownFields blocks icb).body.take 1000))) :
    (indexMarkdown franc icb filePath markdown blocks [] mtime).collection
        = jsonTags [franc ((extractMarkdownFields blocks icb).body.take 1000)] ∧
    (indexMarkdown franc icb filePath markdown blocks [] mtime).collection
        ≠ jsonTags [] ∧
    ∀ docs limit, indexMarkdown franc icb filePath markdown blocks [] mtime
      ∉ search docs matchQ rank limit minScore (some (t0 :: fts)) := by
  have hbne : (extractMarkdownFields blocks icb).body ≠ [] := by
    intro h0
    rw [h0] at hlen
    simp at hlen
  have hcol : (indexMarkdown franc icb filePath markdown blocks [] mtime).collection
      = jsonTags [franc ((extractMarkdownFields blocks icb).body.take 1000)] := by
    show jsonTags (autoTags franc markdown
      (extractMarkdownFields blocks icb).body []) = _
    unfold autoTags detectLanguage
    rw [if_neg hbne,
      if_neg (by omega : ¬ (extractMarkdownFields blocks icb).body.length < 100),
      if_neg hund]
    show jsonTags (if franc ((extractMarkdownFields blocks icb).body.take 1000)
        ∈ ([] : List Txt) then [] else
        [] ++ [franc ((extractMarkdownFields blocks icb).body.take 1000)]) = _
    rw [if_neg (List.not_mem_nil _)]
    rfl
  refine ⟨hcol, ?_, ?_⟩
  · rw [hcol]
    intro h
    have h2 : jsonTags [franc ((extractMarkdownFields blocks icb).body.take 1000)]
        = [91, 93] := by
      rw [h]
      rfl
    exact (List.cons_ne_nil _ _) (jsonTags_eq_nil_iff.mp h2)
  · intro docs limit hmem
    unfold search at hmem
    have h1 := List.mem_of_mem_take hmem
    rw [List.mem_insertionSort, List.mem_filter] at h1
    have hw := h1.2
    unfold searchWhere at hw
    rw [Bool.and_eq_true, Bool.and_eq_true] at hw
    obtain ⟨⟨hA, hT⟩, hM⟩ := hw
    have hT2 : tagFilterOk (t0 :: fts)
        (jsonTags [franc ((extractMarkdownFields blocks icb).body.take 1000)])
          = true := by
      rw [← hcol]
      exact hT
    have hch := (tagFilterOk_iff hf (by
      intro u hu
      rw [List.mem_singleton] at hu
      subst hu
      exact hlang)).mp hT2
    rcases hch with h0 | ⟨u, hu, t, htm, heq⟩
    · exact (List.cons_ne_nil _ _) h0
    · rw [List.mem_singleton] at hu
      subst hu
      exact hdiff t htm heq.symm

/-- C9 witness: a 100-character body detected as `eng`, excluded from a
search filtered to the unrelated tag `x`. -/
theorem indexMarkdown_language_autotag_witness :
    ((indexMarkdown (fun _ => [101, 110, 103]) false [] []
        [Block.paragraph (List.replicate 100 97) none] [] none).collection
      = jsonTags [(fun _ : Txt => [101, 110, 103])
          ((extractMarkdownFields [Block.paragraph (List.replicate 100 97) none]
            false).body.take 1000)] ∧
    (indexMarkdown (fun _ => [101, 110, 103]) false [] []
        [Block.paragraph (List.replicate 100 97) none] [] none).collection
      ≠ jsonTags [] ∧
    ∀ docs limit, indexMarkdown (fun _ => [101, 110, 103]) false [] []
        [Block.paragraph (List.replicate 100 97) none] [] none
      ∉ search docs (fun _ => true) (fun _ => (0 : Int)) limit none
          (some [[0x78]])) :=
  indexMarkdown_language_autotag (fun _ => [101, 110, 103]) false [] []
    [Block.paragraph (List.replicate 100 97) none] none
    (fun _ => true) (fun _ => (0 : Int)) none [0x78] []
    (by decide) (by decide) (by decide) (by decide) (by decide)

/-- The navigation-relevant fields of a `Snippet` (`childrenIds` may be
absent: JS `undefined`/`null`). -/
structure Snippet where
  documentPath : Txt
  childrenIds : Option (List Nat)

/-- `Snippet.getChildren`: resolve each child id through the searcher
(`getHeadingById`, external, passed as `lookup`) and drop the failures. -/
def getChildren (lookup : Txt → Nat → Option Section) (s : Snippet) :
    List Section :=
  match s.childrenIds with
  | none => []
  | some cids => if cids = [] then [] else cids.filterMap (lookup s.documentPath)

/-- `Snippet.getChild(index)`: `children[index] || null` — an in-range index
yields that child, any other integer yields `null`. -/
def getChild (lookup : Txt → Nat → Option Section) (s : Snippet) (i : Int) :
    Option Section :=
  if h : 0 ≤ i ∧ i.toNat < (getChildren lookup s).length then
    some ((getChildren lookup s).get ⟨i.toNat, h.2⟩)
  else none

/-- C10: `getChild` returns `null` (never throws or yields undefined) for
every integer outside the range of the resolvable children, and on a
snippet with no `childrenIds` (or an empty list) it returns `null` for
every integer. -/
theorem getChild_null_safety
    (lookup : Txt → Nat → Option Section) (s : Snippet) (i : Int)
    (h : i < 0 ∨ (getChildren lookup s).length ≤ i.toNat) :
    getChild lookup s i = none ∧
      (∀ j : Int, s.childrenIds = none ∨ s.childrenIds = some [] →
        getChild lookup s j = none) := by
  constructor
  · unfold getChild
    have hc : ¬(0 ≤ i ∧ i.toNat < (getChildren lookup s).length) := by
      rcases h with h | h
      · intro hc
        omega
      · intro hc
        omega
    rw [dif_neg hc]
  · intro j hj
    have hlen : getChildren lookup s = [] := by
      rcases hj with hj | hj
      · unfold getChildren
        rw [hj]
      · unfold getChildren
        rw [hj]
        rfl
    unfold getChild
    rw [dif_neg (by
      rw [hlen]
      intro hc
      simp at hc)]

/-- C10 witness: a snippet with no children ids, probed at index 5. -/
theorem getChild_null_safety_witness :
    getChild (fun _ _ => none) ⟨[], none⟩ 5 = none ∧
      (∀ j : Int, (⟨[], none⟩ : Snippet).childrenIds = none ∨
          (⟨[], none⟩ : Snippet).childrenIds = some [] →
        getChild (fun _ _ => none) ⟨[], none⟩ j = none) :=
  getChild_null_safety (fun _ _ => none) ⟨[], none⟩ 5 (Or.inr (by decide))

/-- The four extensions of the scanner glob `*.{md,markdown,epub,pdf}`
(`md`, `markdown`, `epub`, `pdf` as codepoints). -/
def globExts : List Txt :=
  [[109, 100], [109, 97, 114, 107, 100, 111, 119, 110],
   [101, 112, 117, 98], [112, 100, 102]]

/-- The basename of a path: everything after the last `/`. -/
def basenameOf (f : Txt) : Txt :=
  (f.reverse.takeWhile (fun c => !(c == 47))).reverse

/-- `path.extname`: the last-dot suffix of the basename, empty when the
basename has no dot or only a leading dot. -/
def extname (f : Txt) : Txt :=
  if ((basenameOf f).reverse.takeWhile (fun c => !(c == 46))).length + 1
      < (basenameOf f).length then
    46 :: ((basenameOf f).reverse.takeWhile (fun c => !(c == 46))).reverse
  else []

/-- `getFileExtension`: `path.extname(filePath).slice(1).toLowerCase()`. -/
def getFileExtension (f : Txt) : Txt := lowerTxt ((extname f).drop 1)

/-- `scanDirectorySync` on the set of relative file paths under the
directory: a file is yielded when it matches the brace pattern
`*.{md,markdown,epub,pdf}` of the external glob (a suffix test against the
four extensions), is in the top level unless `recursive`, and is not
excluded (`excluded` abstracts the glob ignore list, its dot-file rule and
the micromatch post-filter, all external collaborators). -/
def scanDirectorySync (files : List Txt) (excluded : Txt → Bool)
    (recursive : Bool) : List Txt :=
  files.filter (fun f =>
    (globExts.any (fun e => decide ((46 :: e) <:+ f))) &&
    (recursive || f.all (fun c => !(c == 47))) &&
    !(excluded f))

/-- A dotless, slashless extension read off a path suffix is exactly what
`getFileExtension` returns (unless the file is the bare dotfile `.ext`). -/
theorem getFileExtension_of_suffix {f e : Txt}
    (he : ∀ c ∈ e, c ≠ 46 ∧ c ≠ 47) (hb : basenameOf f ≠ 46 :: e)
    (hsuf : (46 :: e) <:+ f) : getFileExtension f = lowerTxt e := by
  obtain ⟨u, hu⟩ := hsuf
  have hbn : basenameOf f
      = (u.reverse.takeWhile (fun c => !(c == 47))).reverse ++ (46 :: e) := by
    unfold basenameOf
    rw [← hu, List.reverse_append]
    rw [show (46 :: e).reverse = e.reverse ++ 46 :: [] from by simp]
    rw [List.append_assoc]
    rw [List.takeWhile_append_of_pos (by
      intro c hc
      rw [List.mem_reverse] at hc
      show (!(c == 47)) = true
      rw [show (c == 47) = false from beq_eq_false_iff_ne.mpr (he c hc).2]
      rfl)]
    rw [List.cons_append, List.nil_append, List.takeWhile_cons]
    show (e.reverse ++ if (!(46 == 47) : Bool) = true then
      46 :: u.reverse.takeWhile (fun c => !(c == 47)) else []).reverse = _
    rw [if_pos (by decide)]
    simp
  have htn : (u.reverse.takeWhile (fun c => !(c == 47))).reverse ≠ [] := by
    intro h0
    rw [h0, List.nil_append] at hbn
    exact hb hbn
  have hrev : (basenameOf f).reverse
      = e.reverse ++ 46 :: (u.reverse.takeWhile (fun c => !(c == 47))) := by
    rw [hbn]
    simp
  have htw : (basenameOf f).reverse.takeWhile (fun c => !(c == 46))
      = e.reverse := by
    rw [hrev, List.takeWhile_append_of_pos (by
      intro c hc
      rw [List.mem_reverse] at hc
      show (!(c == 46)) = true
      rw [show (c == 46) = false from beq_eq_false_iff_ne.mpr (he c hc).1]
      rfl)]
    rw [List.takeWhile_cons]
    show e.reverse ++ (if (!(46 == 46) : Bool) = true then _ else []) = _
    rw [if_neg (by decide)]
    simp
  have hcond : ((basenameOf f).reverse.takeWhile (fun c => !(c == 46))).length + 1
      < (basenameOf f).length := by
    have h1 := List.length_pos.mpr htn
    rw [htw, hbn]
    simp only [List.length_reverse, List.length_append, List.length_cons]
    rw [List.length_reverse] at h1
    omega
  unfold getFileExtension extname
  rw [if_pos hcond, htw]
  simp

/-- C8 (amended): the scan yields exactly the non-excluded files ending in
one of the four extensions md, markdown, epub, pdf — not srt or txt —
(top-level only unless recursive), and for a well-formed path (extension
dotless/slashless, file not a bare dotfile) the suffix test agrees with
`getFileExtension`. -/
theorem scanDirectorySync_semantics
    (files : List Txt) (excluded : Txt → Bool) (recursive : Bool) (f : Txt)
    (e : Txt) (he : ∀ c ∈ e, c ≠ 46 ∧ c ≠ 47) (hb : basenameOf f ≠ 46 :: e) :
    (f ∈ scanDirectorySync files excluded recursive ↔
      (f ∈ files ∧ (∃ e2 ∈ globExts, (46 :: e2) <:+ f) ∧
        (recursive = true ∨ ∀ c ∈ f, c ≠ 47) ∧ excluded f = false)) ∧
    ((46 :: e) <:+ f → getFileExtension f = lowerTxt e) := by
  constructor
  · unfold scanDirectorySync
    simp only [List.mem_filter, Bool.and_eq_true, List.any_eq_true,
      decide_eq_true_eq, Bool.or_eq_true, List.all_eq_true,
      Bool.not_eq_true', beq_eq_false_iff_ne, ne_eq]
    tauto
  · exact getFileExtension_of_suffix he hb

/-- C8 counterexample: `a.txt` has the supported source extension `txt`
but is not yielded by the scan — the glob pattern names only
md/markdown/epub/pdf. -/
theorem scanDirectorySync_misses_txt :
    scanDirectorySync [[97, 46, 116, 120, 116]] (fun _ => false) true = [] ∧
      getFileExtension [97, 46, 116, 120, 116] = [116, 120, 116] := by
  refine ⟨?_, by decide⟩
  decide

/-- C8 witness: the semantics applied to the single file `a.md`. -/
theorem scanDirectorySync_semantics_witness :
    (([97, 46, 109, 100] : Txt) ∈
        scanDirectorySync [[97, 46, 109, 100]] (fun _ => false) true ↔
      (([97, 46, 109, 100] : Txt) ∈ [[97, 46, 109, 100]] ∧
        (∃ e2 ∈ globExts, (46 :: e2) <:+ ([97, 46, 109, 100] : Txt)) ∧
        (true = true ∨ ∀ c ∈ ([97, 46, 109, 100] : Txt), c ≠ 47) ∧
        (fun _ : Txt => false) [97, 46, 109, 100] = false)) ∧
    ((46 :: [109, 100]) <:+ ([97, 46, 109, 100] : Txt) →
      getFileExtension [97, 46, 109, 100] = lowerTxt [109, 100]) :=
  scanDirectorySync_semantics [[97, 46, 109, 100]] (fun _ => false) true
    [97, 46, 109, 100] [109, 100] (by decide) (by decide)

/-- A write received by the storage layer. -/
inductive DbWrite where
  | del (path : Txt)
  | ins (r : Record)
deriving DecidableEq

/-- `hasDocument`: `SELECT COUNT(*) ... WHERE path = ?` is positive. -/
def hasDocument (path : Txt) (st : List Record) : Bool :=
  st.any (fun r => r.path == path)

/-- `_getDocumentMtime`: the stored mtime column of the record at `path`,
`null` when absent. -/
def getDocumentMtime (path : Txt) (st : List Record) : Option Int :=
  match st.find? (fun r => r.path == path) with
  | some r => r.mtime
  | none => none

/-- The freshness test `storedMtime && Math.abs(current - stored) < 1000`
(a stored mtime of 0 is falsy in JS and counts as absent). -/
def mtimeFresh (cur : Int) (stored : Option Int) : Bool :=
  match stored with
  | some m => (!(m == 0)) && decide ((cur - m).natAbs < 1000)
  | none => false

/-- The storage effect of `_indexMarkdown`: delete any existing row at the
path, then insert the new record; the second component is the write trace
sent to the storage layer. -/
def indexMarkdownSt (franc : Txt → Txt) (icb : Bool) (path content : Txt)
    (blocks : List Block) (tags : List Txt) (mtime : Option Int)
    (st : List Record) : List Record × List DbWrite :=
  if hasDocument path st then
    (st.filter (fun q => !(q.path == path))
        ++ [indexMarkdown franc icb path content blocks tags mtime],
     [DbWrite.del path,
      DbWrite.ins (indexMarkdown franc icb path content blocks tags mtime)])
  else
    (st ++ [indexMarkdown franc icb path content blocks tags mtime],
     [DbWrite.ins (indexMarkdown franc icb path content blocks tags mtime)])

/-- `addDocument` on a single markdown file (the `isFile` branch):
skip-existing check, modification check against the stored mtime, else
`_indexFile` → `_indexMarkdown` with the file current mtime; `parse` is
the external remark parse of the file content, `upd` is the `update`
option. -/
def addDocumentFile (franc : Txt → Txt) (icb : Bool) (parse : Txt → List Block)
    (path content : Txt) (currentMtime : Int) (tags : List Txt)
    (skipExisting upd checkModified : Bool) (st : List Record) :
    List Record × List DbWrite :=
  if skipExisting && !upd && !checkModified && hasDocument path st then
    (st, [])
  else if checkModified && hasDocument path st
      && mtimeFresh currentMtime (getDocumentMtime path st)
      && (skipExisting && !upd) then
    (st, [])
  else
    indexMarkdownSt franc icb path content (parse content) tags
      (some currentMtime) st

/-- C6: after indexing a new file with mtime `m1 ≠ 0`, a second
`addDocument` call on the same path and content with
`skipExisting = true, update = false, checkModified = true` and a current
mtime within the 1-second tolerance performs no storage writes and leaves
the whole index state unchanged. -/
theorem addDocument_incremental_skip
    (franc : Txt → Txt) (icb : Bool) (parse : Txt → List Block)
    (path content : Txt) (tags : List Txt) (m1 m2 : Int) (st0 : List Record)
    (hnew : hasDocument path st0 = false) (hm1 : m1 ≠ 0)
    (hclose : (m2 - m1).natAbs < 1000) :
    addDocumentFile franc icb parse path content m2 tags true false true
        (addDocumentFile franc icb parse path content m1 tags true false true
          st0).1
      = ((addDocumentFile franc icb parse path content m1 tags true false true
          st0).1, ([] : List DbWrite)) := by
  have hfirst : addDocumentFile franc icb parse path content m1 tags true false
      true st0
      = (st0 ++ [indexMarkdown franc icb path content (parse content) tags
          (some m1)],
         [DbWrite.ins (indexMarkdown franc icb path content (parse content)
          tags (some m1))]) := by
    unfold addDocumentFile
    rw [if_neg (by simp)]
    rw [if_neg (by rw [hnew]; simp)]
    unfold indexMarkdownSt
    rw [if_neg (by rw [hnew]; simp)]
  have hpath : (indexMarkdown franc icb path content (parse content) tags
      (some m1)).path = path := rfl
  have hfind : (st0 ++ [indexMarkdown franc icb path content (parse content)
        tags (some m1)]).find? (fun r => r.path == path)
      = some (indexMarkdown franc icb path content (parse content) tags
        (some m1)) := by
    rw [List.find?_append]
    have h0 : st0.find? (fun r => r.path == path) = none := by
      rw [List.find?_eq_none]
      intro r hr
      intro hcontra
      have : hasDocument path st0 = true := by
        unfold hasDocument
        rw [List.any_eq_true]
        exact ⟨r, hr, hcontra⟩
      rw [hnew] at this
      exact Bool.false_ne_true this
    rw [h0]
    simp [List.find?, hpath]
  have hhd : hasDocument path (st0 ++ [indexMarkdown franc icb path content
      (parse content) tags (some m1)]) = true := by
    unfold hasDocument
    rw [List.any_eq_true]
    exact ⟨indexMarkdown franc icb path content (parse content) tags (some m1),
      List.mem_append_right _ (List.mem_cons_self _ _), by rw [hpath]; simp⟩
  have hgm : getDocumentMtime path (st0 ++ [indexMarkdown franc icb path
      content (parse content) tags (some m1)]) = some m1 := by
    unfold getDocumentMtime
    rw [hfind]
    rfl
  have hmf : mtimeFresh m2 (some m1) = true := by
    show ((!(m1 == 0)) && decide ((m2 - m1).natAbs < 1000)) = true
    rw [show (m1 == 0) = false from beq_eq_false_iff_ne.mpr hm1,
      decide_eq_true hclose]
    rfl
  rw [hfirst]
  unfold addDocumentFile
  rw [if_neg (by simp)]
  rw [if_pos (by rw [hhd, hgm, hmf]; rfl)]

/-- C6 witness: a fresh path indexed at mtime 1 and re-added at mtime 500:
no writes, state unchanged. -/
theorem addDocument_incremental_skip_witness :
    addDocumentFile (fun _ => []) false (fun _ => []) [97] [] 500 [] true
        false true
        (addDocumentFile (fun _ => []) false (fun _ => []) [97] [] 1 [] true
          false true []).1
      = ((addDocumentFile (fun _ => []) false (fun _ => []) [97] [] 1 [] true
          false true []).1, ([] : List DbWrite)) :=
  addDocument_incremental_skip (fun _ => []) false (fun _ => []) [97] [] []
    1 500 [] (by decide) (by decide) (by decide)

/-- C1 counterexample: a markdown body already containing a decomposed
combining mark (`Cafe` + U+0301) is stored with `body` of length 5 but
`body_normalized` of length 4 — the normalizer drops the mark, so raw and
normalized offsets diverge. -/
theorem indexMarkdown_decomposed_length_mismatch :
    (indexMarkdown (fun _ => []) false [] [0x43, 0x61, 0x66, 0x65, 0x301]
        [] [] none).body.length = 5 ∧
    (indexMarkdown (fun _ => []) false [] [0x43, 0x61, 0x66, 0x65, 0x301]
        [] [] none).bodyNormalized.length = 4 := by
  refine ⟨by decide, ?_⟩
  decide

/-- C1 (amended): for a stored record whose raw markdown and extracted
raw fields are free of combining-mark codepoints, every normalized column
is the codepoint-by-codepoint image of its raw counterpart (lowercased
base letter at each position), hence has the same length, and equal
offsets into `body` and `body_normalized` denote the same logical
position. Inputs with decomposed combining marks violate this. -/
theorem indexMarkdown_offset_alignment
    (franc : Txt → Txt) (icb : Bool) (filePath markdown : Txt)
    (blocks : List Block) (tags : List Txt) (mtime : Option Int)
    (hmd : markFree markdown)
    (hti : markFree (extractMarkdownFields blocks icb).title)
    (hh1 : markFree (extractMarkdownFields blocks icb).h1)
    (hh2 : markFree (extractMarkdownFields blocks icb).h2)
    (hh3 : markFree (extractMarkdownFields blocks icb).h3)
    (hh4 : markFree (extractMarkdownFields blocks icb).h4)
    (hh5 : markFree (extractMarkdownFields blocks icb).h5)
    (hh6 : markFree (extractMarkdownFields blocks icb).h6) :
    ((indexMarkdown franc icb filePath markdown blocks tags mtime).bodyNormalized
        = (indexMarkdown franc icb filePath markdown blocks tags mtime).body.map
            (fun c => toLowerCp (baseOf c)) ∧
      (indexMarkdown franc icb filePath markdown blocks tags mtime).bodyNormalized.length
        = (indexMarkdown franc icb filePath markdown blocks tags mtime).body.length) ∧
    ((indexMarkdown franc icb filePath markdown blocks tags mtime).titleNormalized
        = (indexMarkdown franc icb filePath markdown blocks tags mtime).title.map
            (fun c => toLowerCp (baseOf c)) ∧
      (indexMarkdown franc icb filePath markdown blocks tags mtime).titleNormalized.length
        = (indexMarkdown franc icb filePath markdown blocks tags mtime).title.length) ∧
    ((indexMarkdown franc icb filePath markdown blocks tags mtime).h1Normalized
        = (indexMarkdown franc icb filePath markdown blocks tags mtime).h1.map
            (fun c => toLowerCp (baseOf c)) ∧
      (indexMarkdown franc icb filePath markdown blocks tags mtime).h1Normalized.length
        = (indexMarkdown franc icb filePath markdown blocks tags mtime).h1.length) ∧
    ((indexMarkdown franc icb filePath markdown blocks tags mtime).h2Normalized
        = (indexMarkdown franc icb filePath markdown blocks tags mtime).h2.map
            (fun c => toLowerCp (baseOf c)) ∧
      (indexMarkdown franc icb filePath markdown blocks tags mtime).h2Normalized.length
        = (indexMarkdown franc icb filePath markdown blocks tags mtime).h2.length) ∧
    ((indexMarkdown franc icb filePath markdown blocks tags mtime).h3Normalized
        = (indexMarkdown franc icb filePath markdown blocks tags mtime).h3.map
            (fun c => toLowerCp (baseOf c)) ∧
      (indexMarkdown franc icb filePath markdown blocks tags mtime).h3Normalized.length
        = (indexMarkdown franc icb filePath markdown blocks tags mtime).h3.length) ∧
    ((indexMarkdown franc icb filePath markdown blocks tags mtime).h4Normalized
        = (indexMarkdown franc icb filePath markdown blocks tags mtime).h4.map
            (fun c => toLowerCp (baseOf c)) ∧
      (indexMarkdown franc icb filePath markdown blocks tags mtime).h4Normalized.length
        = (indexMarkdown franc icb filePath markdown blocks tags mtime).h4.length) ∧
    ((indexMarkdown franc icb filePath markdown blocks tags mtime).h5Normalized
        = (indexMarkdown franc icb filePath markdown blocks tags mtime).h5.map
            (fun c => toLowerCp (baseOf c)) ∧
      (indexMarkdown franc icb filePath markdown blocks tags mtime).h5Normalized.length
        = (indexMarkdown franc icb filePath markdown blocks tags mtime).h5.length) ∧
    ((indexMarkdown franc icb filePath markdown blocks tags mtime).h6Normalized
        = (indexMarkdown franc icb filePath markdown blocks tags mtime).h6.map
            (fun c => toLowerCp (baseOf c)) ∧
      (indexMarkdown franc icb filePath markdown blocks tags mtime).h6Normalized.length
        = (indexMarkdown franc icb filePath markdown blocks tags mtime).h6.length) :=
  ⟨⟨normalizeText_markfree hmd, normalizeText_length_markfree hmd⟩,
   ⟨normalizeText_markfree hti, normalizeText_length_markfree hti⟩,
   ⟨normalizeText_markfree hh1, normalizeText_length_markfree hh1⟩,
   ⟨normalizeText_markfree hh2, normalizeText_length_markfree hh2⟩,
   ⟨normalizeText_markfree hh3, normalizeText_length_markfree hh3⟩,
   ⟨normalizeText_markfree hh4, normalizeText_length_markfree hh4⟩,
   ⟨normalizeText_markfree hh5, normalizeText_length_markfree hh5⟩,
   ⟨normalizeText_markfree hh6, normalizeText_length_markfree hh6⟩⟩

/-- C1 witness: the alignment applied to the mark-free markdown `Cafe`
with no blocks. -/
theorem indexMarkdown_offset_alignment_witness :
    (indexMarkdown (fun _ => []) false [] [0x43, 0x61, 0x66, 0x65] [] []
          none).bodyNormalized
        = (indexMarkdown (fun _ => []) false [] [0x43, 0x61, 0x66, 0x65] [] []
          none).body.map (fun c => toLowerCp (baseOf c)) ∧
      (indexMarkdown (fun _ => []) false [] [0x43, 0x61, 0x66, 0x65] [] []
          none).bodyNormalized.length
        = (indexMarkdown (fun _ => []) false [] [0x43, 0x61, 0x66, 0x65] [] []
          none).body.length :=
  (indexMarkdown_offset_alignment (fun _ => []) false [] [0x43, 0x61, 0x66, 0x65]
    [] [] none (by decide) (by decide) (by decide) (by decide) (by decide)
    (by decide) (by decide) (by decide)).1

end SearchMix
